import Mathlib

/-!
# A verification development for `irc.c`

A shallow embedding of the protocol engine of `irc.c`: the byte reader
(`irc_read`), the outbound writer (`irc_send`), the CR LF frame reader and the
positional dispatcher of `irc_loop`, and the three handlers `ping_cb`,
`privmsg_cb`, `connected_cb`.

Conventions of the embedding.

* A byte is a `Nat`; a C `char` array is a `List Nat`; the C string held by an
  array is its content up to the first NUL (`cstr`).
* The connection is the list of results of the successive `read(s, &chr, 1)`
  calls (`ReadResult`): the loop is a function of that list, by structural
  recursion, so it is total.
* A write outside `buf[0 .. MSG_MAX-1]` is undefined behaviour in C; the
  embedding stops there with `Halt.fault`.
-/

namespace Irc

set_option autoImplicit false

/-! ## Constants and C strings -/

/-- The macro `MSG_MAX`. -/
def MSG_MAX : Nat := 512

/-- Carriage return. -/
def CR : Nat := 13

/-- Line feed. -/
def LF : Nat := 10

/-- The space character, the delimiter given to `strtok`. -/
def SP : Nat := 32

/-- The colon character. -/
def COLON : Nat := 58

/-- The exclamation mark. -/
def BANG : Nat := 33

/-- Bytes of a string literal. -/
def str (s : String) : List Nat := s.toList.map Char.toNat

/-- The C string stored in a `char` array: the bytes before the first NUL. -/
def cstr (a : List Nat) : List Nat := a.takeWhile (fun c => c != 0)

/-- The predicate `isspace` of the C locale: space, `\t`, `\n`, `\v`, `\f`, `\r`. -/
def isspace (c : Nat) : Bool := c == 32 || (9 ≤ c && c ≤ 13)

/-! ## `irc_read` -/

/-- Result of `read(s, &chr, 1)`: `-1` (error), `0` (peer closed), or `1` with the byte read. -/
inductive ReadResult where
  | error : ReadResult
  | closed : ReadResult
  | got (chr : Nat) : ReadResult
deriving DecidableEq

/-- What a call of `irc_read` does: return an `int` to the caller, or end the
process through `err(eval, ...)` with exit status `eval`. -/
inductive ReadOutcome where
  | ret (chr : Nat) : ReadOutcome
  | exit (status : Nat) : ReadOutcome
deriving DecidableEq

/-- The function `irc_read`: `case -1` warns, breaks and reaches `return 0`;
`case 0` closes the socket and calls `err(0, "disconnected from server")`;
`case 1` returns the byte (the caller stores it back with `(char)chr`, so the
passage through `int` leaves the byte as it is). -/
def irc_read : ReadResult → ReadOutcome
  | .error => .ret 0
  | .closed => .exit 0
  | .got chr => .ret chr

/-! ## `irc_send` -/

/-- The call `vsnprintf(msg, size, fmt, ap)`, given the fully formatted text:
at most `size - 1` bytes are stored (then a NUL). -/
def vsnprintf (size : Nat) (formatted : List Nat) : List Nat := formatted.take (size - 1)

/-- The bytes `dprintf(s, "%s\r\n", msg)` puts on the connection in `irc_send`. -/
def irc_send_bytes (formatted : List Nat) : List Nat :=
  vsnprintf MSG_MAX formatted ++ [CR, LF]

/-- The result of `dprintf`: the number of bytes written, or a negative value
when the write fails. -/
def dprintf (writeOk : Bool) (bytes : List Nat) : Int :=
  if writeOk then (bytes.length : Int) else -1

/-- The C operator `!` on an `int`. -/
def lnot (x : Int) : Int := if x = 0 then 1 else 0

/-- The value returned by `irc_send`: `!dprintf(s, "%s\r\n", msg)`. -/
def irc_send (writeOk : Bool) (formatted : List Nat) : Int :=
  lnot (dprintf writeOk (irc_send_bytes formatted))

/-! ## The frame reader of `irc_loop` -/

/-- The locals of `irc_loop` that the inner read loop uses: the array `buf`,
the offset `ln - buf`, and the flag `cr`. -/
structure Reader where
  buf : List Nat
  ln : Nat
  cr : Bool
deriving DecidableEq

/-- State at the top of the outer loop: `bzero(buf, MSG_MAX); ln = buf; cr = 0`. -/
def Reader.fresh : Reader := ⟨List.replicate MSG_MAX 0, 0, false⟩

/-- One pass of the inner loop body after `chr = irc_read(s)`. -/
inductive Step where
  | more (r : Reader) : Step
  | line (buf : List Nat) : Step
  | fault : Step
deriving DecidableEq

/-- The body of the inner `for (;;)`:
`if (chr == CR) cr = 1; if (cr && chr == LF) { *--ln = 0; break; } *ln++ = chr;`. -/
def readStep (r : Reader) (chr : Nat) : Step :=
  let cr := r.cr || chr == CR
  if cr && chr == LF then
    if 0 < r.ln ∧ r.ln - 1 < MSG_MAX then .line (r.buf.set (r.ln - 1) 0) else .fault
  else
    if r.ln < MSG_MAX then .more ⟨r.buf.set r.ln chr, r.ln + 1, cr⟩ else .fault

/-- Why the loop stopped consuming the connection. -/
inductive Halt where
  | starved (r : Reader) : Halt
  | exited (status : Nat) : Halt
  | fault : Halt
deriving DecidableEq

/-- The frame reader: the buffers handed to the dispatcher, in order, and how
the run ended (`starved`: the connection has delivered nothing more yet). -/
def frames : Reader → List ReadResult → List (List Nat) × Halt
  | r, [] => ([], .starved r)
  | r, x :: xs =>
    match irc_read x with
    | .exit status => ([], .exited status)
    | .ret chr =>
      match readStep r chr with
      | .fault => ([], .fault)
      | .more r2 => frames r2 xs
      | .line buf => ((buf :: (frames Reader.fresh xs).1), (frames Reader.fresh xs).2)

/-- The frame reader from the start of `irc_loop`. -/
def irc_loop_frames (conn : List ReadResult) : List (List Nat) × Halt :=
  frames Reader.fresh conn

/-- The Lines (C strings) handed to the dispatcher. -/
def irc_loop_lines (conn : List ReadResult) : List (List Nat) :=
  (irc_loop_frames conn).1.map cstr

/-- A connection delivering the given bytes, every read succeeding. -/
def bytes (bs : List Nat) : List ReadResult := bs.map ReadResult.got

/-- The wire encoding of a list of lines: each followed by CR LF. -/
def encode (lines : List (List Nat)) : List Nat :=
  lines.flatMap (fun l => l ++ [CR, LF])

/-- CR and LF occur only as adjacent CR LF pairs; the flag tells whether the
byte just before was a CR that still awaits its LF. -/
def crlfPairedFrom : Bool → List Nat → Bool
  | _, [] => true
  | true, c :: rest => c == LF && crlfPairedFrom false rest
  | false, c :: rest =>
    if c == CR then crlfPairedFrom true rest else c != LF && crlfPairedFrom false rest

/-- In the byte stream every CR is directly followed by LF and every LF directly
preceded by CR. -/
def crlfPaired (bs : List Nat) : Bool := crlfPairedFrom false bs

/-! ## The dispatcher of `irc_loop` -/

/-- The call `strncpy(dst, src, n)`: the C string of `src`, cut at `n` bytes,
padded with NUL up to `n` bytes. -/
def strncpy (n : Nat) (src : List Nat) : List Nat :=
  (cstr src).take n ++ List.replicate (n - ((cstr src).take n).length) 0

/-- One call of `strtok` with delimiter `" "` on the text still to be scanned:
skip leading spaces; `NULL` at the end of the text; otherwise the token runs to
the next space, which is overwritten with NUL, and scanning resumes after it.
Returns the token and the text left for the next call. -/
def strtok (s : List Nat) : Option (List Nat × List Nat) :=
  let s1 := s.dropWhile (fun c => c == SP)
  if s1 = [] then none
  else some (s1.takeWhile (fun c => c != SP), (s1.dropWhile (fun c => c != SP)).drop 1)

/-- The test `strncmp(a, b, n) == 0` on two C strings. -/
def strncmp_eq (a b : List Nat) (n : Nat) : Bool := a.take n == b.take n

/-- The handlers of the callback table. -/
inductive Handler where
  | ping_cb : Handler
  | privmsg_cb : Handler
  | connected_cb : Handler
deriving DecidableEq

/-- The record `struct irc_callback_s`. -/
structure irc_callback_s where
  n : Int
  search : List Nat
  fn : Handler
deriving DecidableEq

/-- The callback table `cb`. -/
def cb : List irc_callback_s :=
  [ ⟨0, str "PING", .ping_cb⟩,
    ⟨1, str "PRIVMSG", .privmsg_cb⟩,
    ⟨1, str "376", .connected_cb⟩ ]

/-- The inner `for (i = 0; i < LEN(cb); i++)` for one token `tok` at position
`y`, over the table entries from index `i` on: the indices whose `fn` is called. -/
def scanTable (tok : List Nat) (y : Nat) : List irc_callback_s → Nat → List Nat
  | [], _ => []
  | b :: rest, i =>
    (if strncmp_eq tok b.search MSG_MAX && b.n == (y : Int) then [i] else [])
      ++ scanTable tok y rest (i + 1)

/-- The loop `while (tok != NULL) { ...; tok = strtok(NULL, " "); y++; }`,
given the result of the latest `strtok` call; the table indices whose `fn` is
called, in call order. Every iteration shortens the text left, so `fuel`
above its length is never exhausted. -/
def dispatchLoop (tbl : List irc_callback_s) :
    Nat → Option (List Nat × List Nat) → Nat → List Nat
  | 0, _, _ => []
  | _ + 1, none, _ => []
  | fuel + 1, some (tok, rest), y =>
    scanTable tok y tbl 0 ++ dispatchLoop tbl fuel (strtok rest) (y + 1)

/-- The dispatcher: `y = 0; strncpy(tbuf, buf, MSG_MAX); tok = strtok(tbuf, " ");`
then the loop. The result lists the table indices invoked, in order; each
call is `cb[i].fn(s, buf)`. -/
def dispatch (tbl : List irc_callback_s) (buf : List Nat) : List Nat :=
  dispatchLoop tbl (MSG_MAX + 1) (strtok (cstr (strncpy MSG_MAX buf))) 0

/-- The token sequence of a text under `strtok` with delimiter `" "`: its
maximal runs of bytes other than space. -/
def words (s : List Nat) : List (List Nat) :=
  (s.splitOn SP).filter (fun t => t ≠ [])

/-- The token sequence the dispatcher walks for a buffer. -/
def tokens (buf : List Nat) : List (List Nat) := words (cstr (strncpy MSG_MAX buf))

/-! ## The handlers -/

/-- A whitespace directive of `sscanf`: skip any run of white space. -/
def skipws (s : List Nat) : List Nat := s.dropWhile isspace

/-- The conversion `%s` of `sscanf` (also `%*s`): skip white space, then read
the run of bytes that are not white space; fails at the end of the input. -/
def scanS (s : List Nat) : Option (List Nat × List Nat) :=
  let s1 := skipws s
  if s1 = [] then none
  else some (s1.takeWhile (fun c => !isspace c), s1.dropWhile (fun c => !isspace c))

/-- The conversion `%[^!]` of `sscanf`: read the non-empty run of bytes other
than `!`; fails when that run is empty. -/
def scanNotBang (s : List Nat) : Option (List Nat × List Nat) :=
  if s.takeWhile (fun c => c != BANG) = [] then none
  else some (s.takeWhile (fun c => c != BANG), s.dropWhile (fun c => c != BANG))

/-- The call `sscanf(buf, "%*s %s", pong_token)`: what is stored in
`pong_token`, `none` when the conversion is not reached and the array keeps its
uninitialised content. -/
def ping_token (buf : List Nat) : Option (List Nat) :=
  match scanS (cstr buf) with
  | none => none
  | some (_, r1) =>
    match scanS (skipws r1) with
    | none => none
    | some (t, _) => some t

/-- The handler `ping_cb`: the messages it puts on the connection. `junk` is
the C string the uninitialised array `pong_token` happens to hold. -/
def ping_cb (junk : List Nat) (buf : List Nat) : List (List Nat) :=
  [irc_send_bytes (str "PONG " ++ (ping_token buf).getD junk)]

/-- The loop `while (*msg && *msg++ != ':') ;` from the position of `msg`:
the position it stops at. -/
def skipToColon : List Nat → List Nat
  | [] => []
  | c :: rest => if c = 0 then c :: rest else if c = COLON then rest else skipToColon rest

/-- The call `sscanf(buf, ":%[^!]!%*s %*s %s", from, to)` on the C string of
`buf`: what is stored in `from` and in `to` (`none`: not assigned). -/
def privmsg_scan (s : List Nat) : Option (List Nat) × Option (List Nat) :=
  match s with
  | [] => (none, none)
  | c :: s1 =>
    if c = COLON then
      match scanNotBang s1 with
      | none => (none, none)
      | some (f, s2) =>
        match s2 with
        | [] => (some f, none)
        | d :: s3 =>
          if d = BANG then
            match scanS s3 with
            | none => (some f, none)
            | some (_, s4) =>
              match scanS (skipws s4) with
              | none => (some f, none)
              | some (_, s5) =>
                match scanS (skipws s5) with
                | none => (some f, none)
                | some (t, _) => (some f, some t)
          else (some f, none)
    else (none, none)

/-- What `privmsg_cb` extracts and prints: `from`, `msg` and `to`. -/
structure Privmsg where
  from_ : Option (List Nat)
  msg : List Nat
  to_ : Option (List Nat)
deriving DecidableEq

/-- The handler `privmsg_cb`: `msg = buf + 1`, the colon loop, then the `sscanf`. -/
def privmsg_cb (buf : List Nat) : Privmsg :=
  { from_ := (privmsg_scan (cstr buf)).1
    msg := cstr (skipToColon (buf.drop 1))
    to_ := (privmsg_scan (cstr buf)).2 }

/-- The handler `connected_cb`: the messages it puts on the connection. -/
def connected_cb (_buf : List Nat) : List (List Nat) :=
  [irc_send_bytes (str "JOIN " ++ str "#bots")]

/-- The messages a handler puts on the connection when called with `buf`
(`privmsg_cb` only prints). -/
def Handler.sent (junk : List Nat) (buf : List Nat) : Handler → List (List Nat)
  | .ping_cb => Irc.ping_cb junk buf
  | .privmsg_cb => []
  | .connected_cb => Irc.connected_cb buf

/-- The messages put on the connection while the table `cb` is dispatched on `buf`. -/
def dispatchSent (junk : List Nat) (buf : List Nat) : List (List Nat) :=
  (dispatch cb buf).flatMap (fun i =>
    match cb[i]? with
    | some b => b.fn.sent junk buf
    | none => [])

/-- The wire message `JOIN #bots` with its CR LF. -/
def JOIN_BOTS : List Nat := str "JOIN #bots\r\n"

/-- The outbound message is a JOIN command. -/
def isJoin (m : List Nat) : Bool := m.take 5 == str "JOIN "

/-- A non-empty field without white space, `!` or `:`. -/
def isWord (w : List Nat) : Bool :=
  !w.isEmpty && w.all (fun c => !isspace c && c != BANG && c != COLON)

/-- The token position `n` of the table entry with index `i` (0 past the end of the table). -/
def entryPos (tbl : List irc_callback_s) (i : Nat) : Int :=
  match tbl[i]? with
  | some b => b.n
  | none => 0

/-- The order of calls: by token position first, by table index second. -/
def callsBefore (tbl : List irc_callback_s) (i j : Nat) : Prop :=
  entryPos tbl i < entryPos tbl j ∨ (entryPos tbl i = entryPos tbl j ∧ i < j)

/-- The handlers called while the table `cb` is dispatched on `buf`, in call order. -/
def calledHandlers (buf : List Nat) : List Handler :=
  (dispatch cb buf).filterMap (fun i =>
    match cb[i]? with
    | some b => some b.fn
    | none => none)

/-- The text after the first `:` of a text, empty when the text has no `:`. -/
def afterColon (s : List Nat) : List Nat := (s.dropWhile (fun c => c != COLON)).drop 1

/-- The text of a Line after its second space-separated word, the command word. -/
def afterCommand (s : List Nat) : List Nat :=
  (((s.dropWhile (fun c => c == SP)).dropWhile (fun c => c != SP)).dropWhile
    (fun c => c == SP)).dropWhile (fun c => c != SP)

/-- The trailing parameter in the words of the specification: the text that
follows the first `:` occurring after the command word. -/
def trailingParam (s : List Nat) : List Nat := afterColon (afterCommand s)

/-- The states of the frame reader in section 4.2 of the specification;
`LINE_READY` is left at once for `ACCUMULATING`, so it is not a resting state. -/
inductive FrameState where
  | ACCUMULATING : FrameState
  | SAW_CR : FrameState
deriving DecidableEq

/-- The three-state machine in the words of the specification: in
`ACCUMULATING` a CR leads to `SAW_CR` and appends nothing yet, any other byte
is appended; in `SAW_CR` an LF completes the Line (the accumulated bytes) and
resets, any other byte folds the CR back, appending it and the byte. -/
def specFrames : FrameState → List Nat → List Nat → List (List Nat)
  | _, _, [] => []
  | .ACCUMULATING, acc, c :: rest =>
    if c = CR then specFrames .SAW_CR acc rest
    else specFrames .ACCUMULATING (acc ++ [c]) rest
  | .SAW_CR, acc, c :: rest =>
    if c = LF then acc :: specFrames .ACCUMULATING [] rest
    else specFrames .ACCUMULATING (acc ++ [CR, c]) rest

/-- The index of `buf` that one pass of the inner loop body writes: `ln - 1`
for the terminator write `*--ln = 0`, `ln` for the append `*ln++ = chr`. -/
def writeIndex (r : Reader) (chr : Nat) : Int :=
  if (r.cr || chr == CR) && chr == LF then (r.ln : Int) - 1 else (r.ln : Int)

/-- The indices of `buf` written during a run of the frame reader, in order,
up to the first write outside the array. -/
def writes : Reader → List ReadResult → List Int
  | _, [] => []
  | r, x :: xs =>
    match irc_read x with
    | .exit _ => []
    | .ret chr =>
      writeIndex r chr ::
        (match readStep r chr with
         | .fault => []
         | .more r2 => writes r2 xs
         | .line _ => writes Reader.fresh xs)

/-- Whenever `cr` is set, a byte has been stored since the last reset. -/
def crStored (r : Reader) : Prop := r.cr = true → 0 < r.ln

/-- The two arrays of `irc_loop` that a dispatch works with: the Line `buf`
and the tokenizer buffer `tbuf`. -/
structure Arrays where
  buf : List Nat
  tbuf : List Nat
deriving DecidableEq

/-- A call `cb[i].fn(s, buf)`: the table index and the content of the array
the handler is given. -/
structure Call where
  i : Nat
  arg : List Nat
deriving DecidableEq

/-- A call of `strtok` with delimiter `" "` on the array `tbuf`, resumed at
offset `p`: skip the spaces (`strspn`); `NULL` at the NUL; otherwise the token
starts there and runs to the next space or NUL (`strcspn`); a space is
overwritten with NUL in `tbuf` and the scan resumes behind it. Returns the
offset of the token and the offset saved for the next call, and the arrays. -/
def strtokMem (m : Arrays) (p : Nat) : Option (Nat × Nat) × Arrays :=
  let b := p + ((cstr (m.tbuf.drop p)).takeWhile (fun c => c == SP)).length
  if cstr (m.tbuf.drop b) = [] then (none, m)
  else
    let e := b + ((cstr (m.tbuf.drop b)).takeWhile (fun c => c != SP)).length
    if cstr (m.tbuf.drop e) = [] then (some (b, e), m)
    else (some (b, e + 1), ⟨m.buf, m.tbuf.set e 0⟩)

/-- The dispatch loop on the arrays: the token is the C string at its offset
in `tbuf`, each handler is called with the array `buf`. The handlers only read
`buf` (`sscanf`, the colon loop), so a call leaves the arrays as they are.
Returns the calls and the arrays at the end. -/
def dispatchLoopMem (tbl : List irc_callback_s) :
    Nat → Option (Nat × Nat) × Arrays → Nat → List Call × Arrays
  | 0, (_, m), _ => ([], m)
  | _ + 1, (none, m), _ => ([], m)
  | fuel + 1, (some (b, q), m), y =>
    ((scanTable (cstr (m.tbuf.drop b)) y tbl 0).map (fun i => Call.mk i m.buf)
        ++ (dispatchLoopMem tbl fuel (strtokMem m q) (y + 1)).1,
      (dispatchLoopMem tbl fuel (strtokMem m q) (y + 1)).2)

/-- The dispatcher on the arrays: `strncpy(tbuf, buf, MSG_MAX)`, the first
`strtok(tbuf, " ")`, then the loop. -/
def dispatchMem (tbl : List irc_callback_s) (buf : List Nat) : List Call × Arrays :=
  dispatchLoopMem tbl (MSG_MAX + 1) (strtokMem ⟨buf, strncpy MSG_MAX buf⟩ 0) 0

/-! ## Auxiliary definitions for the proofs -/

/-- The reader state once the bytes `w` have been stored since the last reset. -/
def Reader.after (w : List Nat) (cr : Bool) : Reader :=
  ⟨w ++ List.replicate (MSG_MAX - w.length) 0, w.length, cr⟩

/-- No CR and no LF among the bytes. -/
def clean (w : List Nat) : Prop := ∀ c ∈ w, c ≠ CR ∧ c ≠ LF

/-- The calls of the dispatch loop, token by token. -/
def walk (tbl : List irc_callback_s) : List (List Nat) → Nat → List Nat
  | [], _ => []
  | t :: ts, y => scanTable t y tbl 0 ++ walk tbl ts (y + 1)

/-! ## Facts about C strings and the line buffer -/

theorem fresh_eq_after : Reader.fresh = Reader.after [] false := rfl

theorem takeWhile_append_stop (p : Nat → Bool) (a b : List Nat) (x : Nat) (hx : p x = false) :
    (a ++ x :: b).takeWhile p = a.takeWhile p := by
  induction a with
  | nil => simp [List.takeWhile, hx]
  | cons y ys ih =>
    by_cases hy : p y
    · simp [List.takeWhile_cons, hy, ih]
    · simp [List.takeWhile_cons, hy]

theorem cstr_append_nul (a b : List Nat) : cstr (a ++ 0 :: b) = cstr a :=
  takeWhile_append_stop _ a b 0 (by simp)

theorem cstr_of_no_nul (a : List Nat) (h : 0 ∉ a) : cstr a = a := by
  unfold cstr
  rw [List.takeWhile_eq_self_iff]
  intro c hc
  have : c ≠ 0 := fun e => h (e ▸ hc)
  simpa using this

theorem cstr_subset (a : List Nat) : ∀ c ∈ cstr a, c ∈ a := fun _ hc =>
  (List.takeWhile_sublist _).subset hc

theorem nul_not_mem_cstr (a : List Nat) : 0 ∉ cstr a := by
  intro h
  have := List.mem_takeWhile_imp h
  simp at this

theorem set_append_zeros (w : List Nat) (k c : Nat) :
    (w ++ List.replicate (k + 1) 0).set w.length c = w ++ c :: List.replicate k 0 := by
  induction w with
  | nil => simp [List.replicate_succ]
  | cons y ys ih => simpa using ih

theorem readStep_after_more (w : List Nat) (cr : Bool) (c : Nat) (hlen : w.length < MSG_MAX)
    (h : ((cr || c == CR) && c == LF) = false) :
    readStep (Reader.after w cr) c = .more (Reader.after (w ++ [c]) (cr || c == CR)) := by
  obtain ⟨k, hk⟩ : ∃ k, MSG_MAX - w.length = k + 1 := ⟨MSG_MAX - w.length - 1, by omega⟩
  have hk2 : MSG_MAX - (w.length + 1) = k := by omega
  simp only [readStep, Reader.after, h, hlen, hk, set_append_zeros, List.length_append,
    List.length_singleton, hk2]
  simp

theorem readStep_after_full (w : List Nat) (cr : Bool) (c : Nat) (hlen : MSG_MAX ≤ w.length)
    (h : ((cr || c == CR) && c == LF) = false) :
    readStep (Reader.after w cr) c = .fault := by
  have : ¬ w.length < MSG_MAX := by omega
  simp [readStep, Reader.after, h, this]

theorem readStep_after_line (w : List Nat) (x : Nat) (cr : Bool) (c : Nat)
    (hlen : w.length < MSG_MAX) (h : ((cr || c == CR) && c == LF) = true) :
    ∃ buf, readStep (Reader.after (w ++ [x]) cr) c = .line buf ∧ cstr buf = cstr w := by
  refine ⟨w ++ 0 :: List.replicate (MSG_MAX - (w.length + 1)) 0, ?_, cstr_append_nul _ _⟩
  have h1 : 0 < w.length + 1 ∧ w.length + 1 - 1 < MSG_MAX := ⟨by omega, by omega⟩
  have h2 : (w ++ [x] ++ List.replicate (MSG_MAX - (w.length + 1)) 0).set w.length 0
      = w ++ 0 :: List.replicate (MSG_MAX - (w.length + 1)) 0 := by
    rw [List.append_assoc, List.set_append_right _ _ (le_refl _)]
    simp
  simp only [readStep, Reader.after, h, List.length_append, List.length_singleton]
  simp [h2, hlen]

theorem frames_got (r : Reader) (c : Nat) (xs : List ReadResult) :
    frames r (.got c :: xs) =
      match readStep r c with
      | .fault => ([], .fault)
      | .more r2 => frames r2 xs
      | .line buf => ((buf :: (frames Reader.fresh xs).1), (frames Reader.fresh xs).2) := rfl

/-- Bytes that are neither CR nor LF are stored one by one, leaving `cr` clear. -/
theorem frames_plain (l : List Nat) (hl : ∀ c ∈ l, c ≠ CR ∧ c ≠ LF) (rest : List ReadResult) :
    ∀ w : List Nat, w.length + l.length ≤ MSG_MAX →
      frames (Reader.after w false) (bytes l ++ rest) = frames (Reader.after (w ++ l) false) rest := by
  induction l with
  | nil => intro w _; simp [bytes]
  | cons c cs ih =>
    intro w hw
    have hc := hl c (List.mem_cons_self _ _)
    have hlen : w.length < MSG_MAX := by simp at hw; omega
    have hcond : ((false || c == CR) && c == LF) = false := by simp [hc.2]
    have hcr : (false || c == CR) = false := by simp [hc.1]
    have := ih (fun d hd => hl d (List.mem_cons_of_mem _ hd)) (w ++ [c])
      (by simp at hw ⊢; omega)
    simp only [bytes, List.map_cons, List.cons_append, frames_got,
      readStep_after_more w false c hlen hcond, hcr]
    simpa [bytes] using this

/-- One well-formed line followed by CR LF is handed over as itself. -/
theorem frames_line (l : List Nat) (hlen : l.length < MSG_MAX)
    (hl : ∀ c ∈ l, c ≠ CR ∧ c ≠ LF) (h0 : 0 ∉ l) (rest : List ReadResult) :
    ∃ buf, cstr buf = l ∧
      frames Reader.fresh (bytes (l ++ [CR, LF]) ++ rest)
        = (buf :: (frames Reader.fresh rest).1, (frames Reader.fresh rest).2) := by
  obtain ⟨buf, hstep, hbuf⟩ := readStep_after_line l CR true LF hlen (by decide)
  refine ⟨buf, by rw [hbuf, cstr_of_no_nul l h0], ?_⟩
  have e : bytes (l ++ [CR, LF]) ++ rest = bytes l ++ (.got CR :: .got LF :: rest) := by
    simp [bytes]
  have h1 := frames_plain l hl (.got CR :: .got LF :: rest) [] (by simpa using le_of_lt hlen)
  rw [e, fresh_eq_after, h1, ← fresh_eq_after]
  simp only [List.nil_append, frames_got]
  rw [readStep_after_more l false CR hlen (by decide)]
  simp only [frames_got]
  have : (false || CR == CR) = true := by decide
  rw [this, hstep]

theorem readStep_after_line_full (w : List Nat) (cr : Bool) (c : Nat)
    (hlen : MSG_MAX < w.length) (h : ((cr || c == CR) && c == LF) = true) :
    readStep (Reader.after w cr) c = .fault := by
  have : ¬ (0 < w.length ∧ w.length - 1 < MSG_MAX) := by omega
  simp only [readStep, Reader.after, h]
  simp [this]

theorem bytes_append (a b : List Nat) : bytes (a ++ b) = bytes a ++ bytes b := by
  simp [bytes]

theorem frames_encode (lines : List (List Nat))
    (h : ∀ l ∈ lines, l.length < MSG_MAX ∧ CR ∉ l ∧ LF ∉ l ∧ 0 ∉ l) :
    (frames Reader.fresh (bytes (encode lines))).1.map cstr = lines ∧
      (frames Reader.fresh (bytes (encode lines))).2 = .starved Reader.fresh := by
  induction lines with
  | nil => simp [encode, bytes, frames]
  | cons l ls ih =>
    obtain ⟨hlen, hcr, hlf, h0⟩ := h l (List.mem_cons_self _ _)
    have ih2 := ih (fun m hm => h m (List.mem_cons_of_mem _ hm))
    have hl : ∀ c ∈ l, c ≠ CR ∧ c ≠ LF := fun c hc =>
      ⟨fun e => hcr (e ▸ hc), fun e => hlf (e ▸ hc)⟩
    obtain ⟨buf, hbuf, hfr⟩ := frames_line l hlen hl h0 (bytes (encode ls))
    have e : bytes (encode (l :: ls)) = bytes (l ++ [CR, LF]) ++ bytes (encode ls) := by
      simp [encode, bytes]
    rw [e, hfr]
    simp [hbuf, ih2.1, ih2.2]

theorem clean_cstr (w : List Nat) (h : clean w) : CR ∉ cstr w ∧ LF ∉ cstr w :=
  ⟨fun hc => (h _ (cstr_subset w _ hc)).1 rfl, fun hc => (h _ (cstr_subset w _ hc)).2 rfl⟩

theorem clean_snoc (w : List Nat) (c : Nat) (h : clean w) (h1 : c ≠ CR) (h2 : c ≠ LF) :
    clean (w ++ [c]) := by
  intro d hd
  rcases List.mem_append.1 hd with hd | hd
  · exact h d hd
  · simp at hd; subst hd; exact ⟨h1, h2⟩

theorem frames_paired (bs : List Nat) :
    (∀ w, clean w → crlfPairedFrom false bs = true →
      ∀ buf ∈ (frames (Reader.after w false) (bytes bs)).1, CR ∉ cstr buf ∧ LF ∉ cstr buf) ∧
    (∀ w, clean w → crlfPairedFrom true bs = true →
      ∀ buf ∈ (frames (Reader.after (w ++ [CR]) true) (bytes bs)).1,
        CR ∉ cstr buf ∧ LF ∉ cstr buf) := by
  induction bs with
  | nil => simp [bytes, frames]
  | cons c rest ih =>
    constructor
    · intro w hw hp buf hbuf
      simp only [bytes, List.map_cons, frames_got] at hbuf
      by_cases hlen : w.length < MSG_MAX
      · by_cases hc : c = CR
        · subst hc
          rw [readStep_after_more w false CR hlen (by decide)] at hbuf
          have hp2 : crlfPairedFrom true rest = true := by simpa [crlfPairedFrom] using hp
          exact ih.2 w hw hp2 buf hbuf
        · have hp2 : c ≠ LF ∧ crlfPairedFrom false rest = true := by
            simpa [crlfPairedFrom, hc] using hp
          rw [readStep_after_more w false c hlen (by simp [hp2.1])] at hbuf
          have hcr : (false || c == CR) = false := by simp [hc]
          rw [hcr] at hbuf
          exact ih.1 (w ++ [c]) (clean_snoc w c hw hc hp2.1) hp2.2 buf hbuf
      · have hcond : ((false || c == CR) && c == LF) = false := by
          by_cases hc : c = CR
          · subst hc; decide
          · simp [hc]
        rw [readStep_after_full w false c (by omega) hcond] at hbuf
        simp at hbuf
    · intro w hw hp buf hbuf
      have hp2 : c = LF ∧ crlfPairedFrom false rest = true := by
        simpa [crlfPairedFrom] using hp
      obtain ⟨hc, hp3⟩ := hp2
      subst hc
      simp only [bytes, List.map_cons, frames_got] at hbuf
      by_cases hlen : w.length < MSG_MAX
      · obtain ⟨b, hstep, hb⟩ := readStep_after_line w CR true LF hlen (by decide)
        rw [hstep] at hbuf
        simp only [List.mem_cons] at hbuf
        rcases hbuf with hbuf | hbuf
        · subst hbuf
          rw [hb]
          exact clean_cstr w hw
        · rw [fresh_eq_after] at hbuf
          exact ih.1 [] (by intro d hd; simp at hd) hp3 buf hbuf
      · rw [readStep_after_line_full (w ++ [CR]) true LF (by simp; omega) (by decide)] at hbuf
        simp at hbuf

theorem irc_send_bytes_length (formatted : List Nat) :
    (irc_send_bytes formatted).length = min formatted.length 511 + 2 := by
  simp [irc_send_bytes, vsnprintf, MSG_MAX, Nat.min_comm]

/-! ## Facts about `strtok` and the dispatcher -/

theorem dropWhile_append_stop (p : Nat → Bool) (a b : List Nat) (x : Nat) (ha : ∀ c ∈ a, p c = true)
    (hx : p x = false) : (a ++ x :: b).dropWhile p = x :: b := by
  induction a with
  | nil => simp [List.dropWhile, hx]
  | cons y ys ih =>
    have hy : p y = true := ha y (List.mem_cons_self _ _)
    simp only [List.cons_append, List.dropWhile_cons, hy, if_true]
    exact ih (fun c hc => ha c (List.mem_cons_of_mem _ hc))

theorem takeWhile_append_all (p : Nat → Bool) (a b : List Nat) (x : Nat) (ha : ∀ c ∈ a, p c = true)
    (hx : p x = false) : (a ++ x :: b).takeWhile p = a := by
  rw [takeWhile_append_stop p a b x hx, List.takeWhile_eq_self_iff]
  exact ha

theorem words_nil : words [] = [] := by decide

theorem words_of_no_space (a : List Nat) (ha : ∀ c ∈ a, c ≠ SP) :
    words a = if a = [] then [] else [a] := by
  have h : a.splitOn SP = [a] := by
    unfold List.splitOn
    exact List.splitOnP_eq_single _ _ (by simpa using ha)
  unfold words
  rw [h]
  by_cases e : a = [] <;> simp [e]

theorem words_append_space (a b : List Nat) (ha : ∀ c ∈ a, c ≠ SP) :
    words (a ++ SP :: b) = (if a = [] then [] else [a]) ++ words b := by
  have h : (a ++ SP :: b).splitOn SP = a :: b.splitOn SP := by
    unfold List.splitOn
    exact List.splitOnP_first _ _ (by simpa using ha) SP (by simp) b
  unfold words
  rw [h]
  by_cases e : a = [] <;> simp [e]

theorem words_dropWhile_space (s : List Nat) : words (s.dropWhile (fun c => c == SP)) = words s := by
  induction s with
  | nil => rfl
  | cons c cs ih =>
    by_cases hc : c = SP
    · subst hc
      have := words_append_space [] cs (by simp)
      simp only [List.nil_append, if_true, List.nil_append] at this
      simp [List.dropWhile_cons, this, ih]
    · simp [List.dropWhile_cons, hc]

/-- What one `strtok` call yields, in terms of the token sequence of the text. -/
theorem strtok_spec (s : List Nat) :
    (strtok s = none ∧ words s = []) ∨
    (∃ tok rest, strtok s = some (tok, rest) ∧ words s = tok :: words rest ∧
      rest.length < s.length) := by
  set s1 := s.dropWhile (fun c => c == SP) with hs1
  by_cases e : s1 = []
  · left
    refine ⟨by simp [strtok, ← hs1, e], ?_⟩
    rw [← words_dropWhile_space, ← hs1, e, words_nil]
  · right
    refine ⟨s1.takeWhile (fun c => c != SP), (s1.dropWhile (fun c => c != SP)).drop 1,
      by simp [strtok, ← hs1, e], ?_, ?_⟩
    · rw [← words_dropWhile_space, ← hs1]
      have hsplit := List.takeWhile_append_dropWhile (fun c => c != SP) s1
      have htok : ∀ c ∈ s1.takeWhile (fun c => c != SP), c ≠ SP := by
        intro c hc
        simpa using List.mem_takeWhile_imp hc
      have hne : s1.takeWhile (fun c => c != SP) ≠ [] := by
        cases h1 : s1 with
        | nil => exact absurd h1 e
        | cons c cs =>
          have hc : c ≠ SP := by
            have := List.head_dropWhile_not (fun c => c == SP) s (by rw [← hs1, h1]; simp)
            simp only [← hs1, h1, List.head_cons] at this
            simpa using this
          simp [List.takeWhile_cons, hc]
      cases hd : s1.dropWhile (fun c => c != SP) with
      | nil =>
        rw [hd, List.append_nil] at hsplit
        rw [hsplit]
        have := words_of_no_space s1 (by rw [← hsplit]; exact htok)
        rw [this, if_neg e]
        simp [words_nil]
      | cons d ds =>
        have hdsp : d = SP := by
          have := List.head_dropWhile_not (fun c => c != SP) s1 (by rw [hd]; simp)
          simp only [hd, List.head_cons] at this
          simpa using this
        subst hdsp
        rw [hd] at hsplit
        have := words_append_space _ ds htok
        rw [hsplit, if_neg hne] at this
        simpa using this
    · have h1 : ((s1.dropWhile (fun c => c != SP)).drop 1).length ≤ s1.length :=
        le_trans (by simp) (List.dropWhile_sublist (fun c => c != SP)).length_le
      have h2 : s1.length ≤ s.length := (List.dropWhile_sublist _).length_le
      have hsplit := congrArg List.length (List.takeWhile_append_dropWhile (fun c => c != SP) s1)
      have hne : 0 < (s1.takeWhile (fun c => c != SP)).length := by
        cases h1 : s1 with
        | nil => exact absurd h1 e
        | cons c cs =>
          have hc : c ≠ SP := by
            have := List.head_dropWhile_not (fun c => c == SP) s (by rw [← hs1, h1]; simp)
            simp only [← hs1, h1, List.head_cons] at this
            simpa using this
          simp [List.takeWhile_cons, hc]
      simp only [List.length_append, List.length_drop] at hsplit ⊢
      omega

/-- The loop never runs out of fuel: it makes the calls of `walk` on the token sequence. -/
theorem dispatchLoop_eq_walk (tbl : List irc_callback_s) :
    ∀ (fuel : Nat) (s : List Nat) (y : Nat), s.length < fuel →
      dispatchLoop tbl fuel (strtok s) y = walk tbl (words s) y := by
  intro fuel
  induction fuel with
  | zero => intro s y h; omega
  | succ fuel ih =>
    intro s y h
    rcases strtok_spec s with ⟨h1, h2⟩ | ⟨tok, rest, h1, h2, h3⟩
    · rw [h1, h2]; rfl
    · rw [h1, h2]
      simp only [dispatchLoop, walk]
      rw [ih rest (y + 1) (by omega)]

theorem cstr_strncpy (n : Nat) (src : List Nat) : cstr (strncpy n src) = (cstr src).take n := by
  unfold strncpy
  have h0 : 0 ∉ (cstr src).take n := fun h => nul_not_mem_cstr src (List.mem_of_mem_take h)
  cases hk : n - ((cstr src).take n).length with
  | zero => simp [cstr_of_no_nul _ h0]
  | succ k =>
    rw [List.replicate_succ, cstr_append_nul, cstr_of_no_nul _ h0]

theorem dispatch_eq_walk (tbl : List irc_callback_s) (buf : List Nat) :
    dispatch tbl buf = walk tbl (tokens buf) 0 := by
  unfold dispatch tokens
  apply dispatchLoop_eq_walk
  rw [cstr_strncpy]
  simp only [List.length_take]
  omega

theorem strncmp_eq_short (tok search : List Nat) (h : search.length < MSG_MAX) :
    strncmp_eq tok search MSG_MAX = true ↔ tok = search := by
  unfold strncmp_eq
  rw [List.take_of_length_le (le_of_lt h), beq_iff_eq]
  constructor
  · intro e
    have hl := congrArg List.length e
    rw [List.length_take] at hl
    have : tok.length ≤ MSG_MAX := by omega
    rwa [List.take_of_length_le this] at e
  · intro e
    subst e
    exact List.take_of_length_le (le_of_lt h)

theorem scanTable_mem (tok : List Nat) (y : Nat) (tbl : List irc_callback_s) :
    ∀ (i0 i : Nat), i ∈ scanTable tok y tbl i0 ↔
      ∃ j b, tbl[j]? = some b ∧ i = i0 + j ∧ strncmp_eq tok b.search MSG_MAX = true ∧
        b.n = (y : Int) := by
  induction tbl with
  | nil => intro i0 i; simp [scanTable]
  | cons c rest ih =>
    intro i0 i
    simp only [scanTable, List.mem_append, ih]
    constructor
    · rintro (h | ⟨j, b, hj, hi, hm⟩)
      · by_cases hc : (strncmp_eq tok c.search MSG_MAX && c.n == (y : Int)) = true
        · rw [if_pos hc] at h
          simp only [Bool.and_eq_true, beq_iff_eq] at hc
          simp only [List.mem_singleton] at h
          exact ⟨0, c, by simp, by omega, hc.1, hc.2⟩
        · rw [if_neg hc] at h
          simp at h
      · exact ⟨j + 1, b, by simpa using hj, by omega, hm⟩
    · rintro ⟨j, b, hj, hi, hm⟩
      cases j with
      | zero =>
        left
        simp only [List.getElem?_cons_zero, Option.some.injEq] at hj
        subst hj
        have hc : (strncmp_eq tok c.search MSG_MAX && c.n == (y : Int)) = true := by
          simp [hm.1, hm.2]
        rw [if_pos hc]
        simp [hi]
      | succ j =>
        right
        exact ⟨j, b, by simpa using hj, by omega, hm⟩

theorem walk_mem (tbl : List irc_callback_s) (toks : List (List Nat)) :
    ∀ (y0 i : Nat), i ∈ walk tbl toks y0 ↔
      ∃ k tok b, toks[k]? = some tok ∧ tbl[i]? = some b ∧
        strncmp_eq tok b.search MSG_MAX = true ∧ b.n = ((y0 + k : Nat) : Int) := by
  induction toks with
  | nil => intro y0 i; simp [walk]
  | cons t ts ih =>
    intro y0 i
    simp only [walk, List.mem_append, ih, scanTable_mem]
    constructor
    · rintro (⟨j, b, hj, hi, hm⟩ | ⟨k, tok, b, hk, hb, hm, hn⟩)
      · have : i = j := by omega
        subst this
        exact ⟨0, t, b, by simp, hj, hm.1, by simpa using hm.2⟩
      · exact ⟨k + 1, tok, b, by simpa using hk, hb, hm, by rw [hn]; congr 1; omega⟩
    · rintro ⟨k, tok, b, hk, hb, hm, hn⟩
      cases k with
      | zero =>
        left
        simp only [List.getElem?_cons_zero, Option.some.injEq] at hk
        subst hk
        exact ⟨i, b, hb, by omega, hm, by simpa using hn⟩
      | succ k =>
        right
        exact ⟨k, tok, b, by simpa using hk, hb, hm, by rw [hn]; congr 1; omega⟩

/-- When a table entry with a search string shorter than `MSG_MAX` is invoked. -/
theorem dispatch_mem (tbl : List irc_callback_s) (buf : List Nat) (i : Nat) (b : irc_callback_s)
    (hb : tbl[i]? = some b) (hs : b.search.length < MSG_MAX) :
    i ∈ dispatch tbl buf ↔ ∃ y : Nat, b.n = (y : Int) ∧ (tokens buf)[y]? = some b.search := by
  rw [dispatch_eq_walk, walk_mem]
  constructor
  · rintro ⟨k, tok, b2, hk, hb2, hm, hn⟩
    rw [hb] at hb2
    cases hb2
    rw [strncmp_eq_short tok b.search hs] at hm
    subst hm
    exact ⟨k, by simpa using hn, hk⟩
  · rintro ⟨y, hn, hy⟩
    exact ⟨y, b.search, b, hy, hb, (strncmp_eq_short _ _ hs).2 rfl, by simpa using hn⟩

theorem str_PING : str "PING" = [80, 73, 78, 71] := by decide

theorem str_PRIVMSG : str "PRIVMSG" = [80, 82, 73, 86, 77, 83, 71] := by decide

theorem str_376 : str "376" = [51, 55, 54] := by decide

theorem strncmp_eq_decide (tok search : List Nat) (h : search.length < MSG_MAX) :
    strncmp_eq tok search MSG_MAX = decide (tok = search) := by
  rw [Bool.eq_iff_iff, strncmp_eq_short tok search h]
  simp

theorem scanTable_cb_zero (tok : List Nat) :
    scanTable tok 0 cb 0 = if tok = str "PING" then [0] else [] := by
  simp only [scanTable, cb, strncmp_eq_decide tok (str "PING") (by decide),
    strncmp_eq_decide tok (str "PRIVMSG") (by decide),
    strncmp_eq_decide tok (str "376") (by decide)]
  by_cases a : tok = str "PING" <;> simp [a]

theorem scanTable_cb_one (tok : List Nat) :
    scanTable tok 1 cb 0 =
      (if tok = str "PRIVMSG" then [1] else []) ++ (if tok = str "376" then [2] else []) := by
  simp only [scanTable, cb, strncmp_eq_decide tok (str "PING") (by decide),
    strncmp_eq_decide tok (str "PRIVMSG") (by decide),
    strncmp_eq_decide tok (str "376") (by decide)]
  by_cases a : tok = str "PRIVMSG" <;> by_cases b : tok = str "376" <;> simp [a, b]

theorem scanTable_cb_far (tok : List Nat) (y : Nat) : scanTable tok (y + 2) cb 0 = [] := by
  have h0 : ((0 : Int) == ((y + 2 : Nat) : Int)) = false := by
    simp only [beq_eq_false_iff_ne, ne_eq]; omega
  have h1 : ((1 : Int) == ((y + 2 : Nat) : Int)) = false := by
    simp only [beq_eq_false_iff_ne, ne_eq]; omega
  simp only [scanTable, cb, h0, h1, Bool.and_false]
  simp

theorem walk_cb_far (toks : List (List Nat)) : ∀ y : Nat, walk cb toks (y + 2) = [] := by
  induction toks with
  | nil => intro y; rfl
  | cons t ts ih => intro y; simp [walk, scanTable_cb_far, ih (y + 1)]

/-- The calls of the dispatcher with the table `cb`, from the first two tokens. -/
theorem dispatch_cb (buf : List Nat) :
    dispatch cb buf =
      (if (tokens buf)[0]? = some (str "PING") then [0] else []) ++
      ((if (tokens buf)[1]? = some (str "PRIVMSG") then [1] else []) ++
       (if (tokens buf)[1]? = some (str "376") then [2] else [])) := by
  rw [dispatch_eq_walk]
  cases h : tokens buf with
  | nil => simp [walk]
  | cons t0 ts =>
    cases ts with
    | nil => simp [walk, scanTable_cb_zero]
    | cons t1 ts =>
      simp [walk, scanTable_cb_zero, scanTable_cb_one, walk_cb_far ts 0]

/-! ## Facts about the handlers -/

theorem tokens_of_line (buf : List Nat) (h : (cstr buf).length < MSG_MAX) :
    tokens buf = words (cstr buf) := by
  unfold tokens
  rw [cstr_strncpy, List.take_of_length_le (le_of_lt h)]

/-- The messages sent during a dispatch, from the first two tokens. -/
theorem dispatchSent_eq (junk buf : List Nat) :
    dispatchSent junk buf =
      (if (tokens buf)[0]? = some (str "PING") then ping_cb junk buf else []) ++
      (if (tokens buf)[1]? = some (str "376") then connected_cb buf else []) := by
  have hne : ¬ str "PRIVMSG" = str "376" := by decide
  unfold dispatchSent
  rw [dispatch_cb]
  by_cases a : (tokens buf)[0]? = some (str "PING") <;>
    by_cases b : (tokens buf)[1]? = some (str "PRIVMSG") <;>
    by_cases c : (tokens buf)[1]? = some (str "376") <;>
    simp [a, b, c, cb, Handler.sent, hne]

theorem skipws_space (x : Nat) (s : List Nat) (hx : isspace x = true) :
    skipws (x :: s) = skipws s := by
  simp [skipws, List.dropWhile_cons, hx]

theorem skipws_nonspace (x : Nat) (s : List Nat) (hx : isspace x = false) :
    skipws (x :: s) = x :: s := by
  simp [skipws, List.dropWhile_cons, hx]

theorem scanS_space (x : Nat) (s : List Nat) (hx : isspace x = true) :
    scanS (x :: s) = scanS s := by
  simp [scanS, skipws_space x s hx]

theorem scanS_word (a b : List Nat) (x : Nat) (ha : a ≠ []) (hws : ∀ c ∈ a, isspace c = false)
    (hx : isspace x = true) : scanS (a ++ x :: b) = some (a, x :: b) := by
  cases a with
  | nil => exact absurd rfl ha
  | cons c cs =>
    have hc : isspace c = false := hws c (List.mem_cons_self _ _)
    have h1 : skipws (c :: cs ++ x :: b) = c :: cs ++ x :: b := by
      simpa using skipws_nonspace c (cs ++ x :: b) hc
    have hp : ∀ d ∈ c :: cs, (fun e => !isspace e) d = true := by
      intro d hd; simp [hws d hd]
    have hq : (fun e => !isspace e) x = false := by simp [hx]
    simp only [scanS, h1]
    rw [takeWhile_append_all _ (c :: cs) b x hp hq, dropWhile_append_stop _ (c :: cs) b x hp hq]
    simp

theorem scanS_word_end (a : List Nat) (ha : a ≠ []) (hws : ∀ c ∈ a, isspace c = false) :
    scanS a = some (a, []) := by
  cases a with
  | nil => exact absurd rfl ha
  | cons c cs =>
    have hc : isspace c = false := hws c (List.mem_cons_self _ _)
    have hp : ∀ d ∈ c :: cs, (fun e => !isspace e) d = true := by
      intro d hd; simp [hws d hd]
    have h1 : (c :: cs).takeWhile (fun e => !isspace e) = c :: cs :=
      List.takeWhile_eq_self_iff.2 hp
    have h2 : (c :: cs).dropWhile (fun e => !isspace e) = [] :=
      List.dropWhile_eq_nil_iff.2 hp
    simp only [scanS, skipws_nonspace c cs hc, h1, h2]
    simp

theorem str_PING_colon : str "PING :" = [80, 73, 78, 71] ++ 32 :: [58] := by decide

theorem str_PONG_colon : str "PONG :" = str "PONG " ++ [58] := by decide

theorem ping_token_of_line (buf X : List Nat) (hline : cstr buf = str "PING :" ++ X)
    (hws : ∀ c ∈ X, isspace c = false) : ping_token buf = some (58 :: X) := by
  have e : cstr buf = [80, 73, 78, 71] ++ 32 :: (58 :: X) := by
    rw [hline, str_PING_colon]; simp
  have h58 : ∀ c ∈ 58 :: X, isspace c = false := by
    intro c hc
    rcases List.mem_cons.1 hc with rfl | hc
    · decide
    · exact hws c hc
  unfold ping_token
  rw [e, scanS_word [80, 73, 78, 71] (58 :: X) 32 (by simp) (by decide) (by decide)]
  simp only
  rw [skipws_space 32 _ (by decide), skipws_nonspace 58 X (by decide),
    scanS_word_end (58 :: X) (by simp) h58]

theorem tokens_ping_line (buf X : List Nat) (hline : cstr buf = str "PING :" ++ X)
    (hws : ∀ c ∈ X, isspace c = false) (hlen : (cstr buf).length < MSG_MAX) :
    tokens buf = [str "PING", 58 :: X] := by
  have e : cstr buf = [80, 73, 78, 71] ++ SP :: (58 :: X) := by
    rw [hline, str_PING_colon]; simp [SP]
  have h58 : ∀ c ∈ 58 :: X, c ≠ SP := by
    intro c hc
    rcases List.mem_cons.1 hc with rfl | hc
    · decide
    · intro h; have := hws c hc; rw [h] at this; exact absurd this (by decide)
  rw [tokens_of_line buf hlen, e, words_append_space _ _ (by decide), words_of_no_space _ h58,
    str_PING]
  simp

theorem irc_send_bytes_short (f : List Nat) (h : f.length < MSG_MAX) :
    irc_send_bytes f = f ++ [CR, LF] := by
  unfold irc_send_bytes vsnprintf
  rw [List.take_of_length_le (by omega)]

theorem isJoin_pong (x : List Nat) : isJoin (irc_send_bytes (str "PONG " ++ x)) = false := by
  have e : str "PONG " ++ x = 80 :: ([79, 78, 71, 32] ++ x) := by
    have : str "PONG " = [80, 79, 78, 71, 32] := by decide
    rw [this]; rfl
  have j : str "JOIN " = [74, 79, 73, 78, 32] := by decide
  unfold isJoin irc_send_bytes vsnprintf
  rw [e, j, show MSG_MAX - 1 = 510 + 1 from rfl, List.take_succ_cons]
  simp

theorem connected_cb_eq (buf : List Nat) : connected_cb buf = [JOIN_BOTS] := by
  unfold connected_cb
  decide

theorem isWord_ne_nil (w : List Nat) (h : isWord w = true) : w ≠ [] := by
  intro e; subst e; simp [isWord] at h

theorem isWord_mem (w : List Nat) (h : isWord w = true) :
    ∀ c ∈ w, isspace c = false ∧ c ≠ BANG ∧ c ≠ COLON := by
  intro c hc
  simp only [isWord, Bool.and_eq_true, List.all_eq_true] at h
  have := h.2 c hc
  simpa [and_assoc] using this

theorem skipws_word (a r : List Nat) (ha : a ≠ []) (hws : ∀ c ∈ a, isspace c = false) :
    skipws (a ++ r) = a ++ r := by
  cases a with
  | nil => exact absurd rfl ha
  | cons c cs => exact skipws_nonspace c (cs ++ r) (hws c (List.mem_cons_self _ _))

theorem scanNotBang_word (a b : List Nat) (ha : a ≠ []) (hb : ∀ c ∈ a, c ≠ BANG) :
    scanNotBang (a ++ BANG :: b) = some (a, BANG :: b) := by
  have hp : ∀ d ∈ a, (fun e => e != BANG) d = true := by
    intro d hd; simpa using hb d hd
  have hq : (fun e => e != BANG) BANG = false := by simp
  unfold scanNotBang
  rw [takeWhile_append_all _ a b BANG hp hq, dropWhile_append_stop _ a b BANG hp hq]
  simp [ha]

theorem skipToColon_append (a rest : List Nat) (h : ∀ c ∈ a, c ≠ 0 ∧ c ≠ COLON) :
    skipToColon (a ++ COLON :: rest) = rest := by
  induction a with
  | nil => simp [skipToColon, COLON]
  | cons c cs ih =>
    have hc := h c (List.mem_cons_self _ _)
    simp only [List.cons_append, skipToColon, if_neg hc.1, if_neg hc.2]
    exact ih (fun d hd => h d (List.mem_cons_of_mem _ hd))

theorem cstr_dropWhile (a : List Nat) : cstr (a.dropWhile (fun c => c != 0)) = [] := by
  induction a with
  | nil => rfl
  | cons c cs ih =>
    by_cases hc : c = 0
    · subst hc; simp [cstr, List.dropWhile_cons]
    · simpa [List.dropWhile_cons, hc] using ih

theorem cstr_append_tail (m a : List Nat) (h0 : 0 ∉ m) :
    cstr (m ++ a.dropWhile (fun c => c != 0)) = m := by
  induction m with
  | nil => simpa using cstr_dropWhile a
  | cons c cs ih =>
    have hc : c ≠ 0 := fun e => h0 (e ▸ List.mem_cons_self _ _)
    have := ih (fun hh => h0 (List.mem_cons_of_mem _ hh))
    simp only [cstr] at this ⊢
    simp [List.takeWhile_cons, hc, this]

theorem buf_split (buf : List Nat) : buf = cstr buf ++ buf.dropWhile (fun c => c != 0) :=
  (List.takeWhile_append_dropWhile _ buf).symm

/-- The fields `privmsg_cb` extracts from a line of the documented shape. -/
theorem privmsg_cb_fields (buf nick userhost target message : List Nat)
    (hline : cstr buf = str ":" ++ nick ++ str "!" ++ userhost ++ str " PRIVMSG " ++ target
      ++ str " :" ++ message)
    (hn : isWord nick = true) (hu : isWord userhost = true) (ht : isWord target = true) :
    privmsg_cb buf = { from_ := some nick, msg := message, to_ := some target } := by
  have hP : str "PRIVMSG" = [80, 82, 73, 86, 77, 83, 71] := by decide
  have e : cstr buf = COLON :: (nick ++ BANG :: (userhost ++ 32 :: (str "PRIVMSG" ++ 32 ::
      (target ++ 32 :: COLON :: message)))) := by
    rw [hline]
    have h1 : str ":" = [COLON] := by decide
    have h2 : str "!" = [BANG] := by decide
    have h3 : str " PRIVMSG " = 32 :: (str "PRIVMSG" ++ [32]) := by decide
    have h4 : str " :" = [32, COLON] := by decide
    rw [h1, h2, h3, h4]
    simp
  have hnm := isWord_mem nick hn
  have hum := isWord_mem userhost hu
  have htm := isWord_mem target ht
  have hPm : ∀ c ∈ str "PRIVMSG", isspace c = false ∧ c ≠ BANG ∧ c ≠ COLON := by decide
  -- the sscanf conversions
  have hscan : privmsg_scan (cstr buf) = (some nick, some target) := by
    rw [e]
    simp only [privmsg_scan, if_true]
    rw [scanNotBang_word nick _ (isWord_ne_nil nick hn) (fun c hc => (hnm c hc).2.1)]
    simp only [if_true]
    rw [scanS_word userhost _ 32 (isWord_ne_nil userhost hu) (fun c hc => (hum c hc).1)
      (by decide)]
    simp only
    rw [skipws_space 32 _ (by decide),
      skipws_word (str "PRIVMSG") _ (by decide) (fun c hc => (hPm c hc).1),
      scanS_word (str "PRIVMSG") _ 32 (by decide) (fun c hc => (hPm c hc).1) (by decide)]
    simp only
    rw [skipws_space 32 _ (by decide),
      skipws_word target _ (isWord_ne_nil target ht) (fun c hc => (htm c hc).1),
      scanS_word target _ 32 (isWord_ne_nil target ht) (fun c hc => (htm c hc).1) (by decide)]
  -- the colon loop
  have hmsg : cstr (skipToColon (buf.drop 1)) = message := by
    have h0 : ∀ c ∈ cstr buf, c ≠ 0 := fun c hc e0 => nul_not_mem_cstr buf (e0 ▸ hc)
    rw [e] at h0
    obtain ⟨tail, hsplit, htail⟩ : ∃ tail, buf = cstr buf ++ tail ∧
        ∀ m, 0 ∉ m → cstr (m ++ tail) = m :=
      ⟨_, buf_split buf, fun m h => cstr_append_tail m buf h⟩
    rw [e] at hsplit
    have hdrop : buf.drop 1 = (nick ++ BANG :: (userhost ++ 32 :: (str "PRIVMSG" ++ 32 ::
        (target ++ [32])))) ++ COLON :: (message ++ tail) := by
      rw [hsplit]
      simp
    have hpre : ∀ c ∈ nick ++ BANG :: (userhost ++ 32 :: (str "PRIVMSG" ++ 32 ::
        (target ++ [32]))), c ≠ 0 ∧ c ≠ COLON := by
      intro c hc
      refine ⟨h0 c ?_, ?_⟩
      · simp only [List.mem_cons, List.mem_append, List.not_mem_nil, or_false] at hc ⊢
        tauto
      · simp only [List.mem_cons, List.mem_append, List.not_mem_nil, or_false] at hc
        rcases hc with h | h | h | h | h | h | h | h
        · exact (hnm c h).2.2
        · subst h; decide
        · exact (hum c h).2.2
        · subst h; decide
        · exact (hPm c h).2.2
        · subst h; decide
        · exact (htm c h).2.2
        · subst h; decide
    rw [hdrop, skipToColon_append _ _ hpre]
    apply htail
    intro hm
    exact h0 0 (by simp [hm]) rfl
  simp only [privmsg_cb, hscan, hmsg]

theorem pong_ne_join (x : List Nat) : irc_send_bytes (str "PONG " ++ x) ≠ JOIN_BOTS := by
  intro e
  have h := isJoin_pong x
  rw [e] at h
  exact absurd h (by decide)

theorem cb_search_short : ∀ b ∈ cb, b.search.length < MSG_MAX := by decide

/-- A `PING` whose token has 506 bytes is answered by a message of 513 bytes. -/
theorem ping_long_line (junk T : List Nat) (hT : T.length = 506) (hall : ∀ c ∈ T, c = 97) :
    (dispatchSent junk (str "PING " ++ T)).map List.length = [513] := by
  have hne : T ≠ [] := by
    intro e; rw [e] at hT; exact absurd hT (by decide)
  have hsp : ∀ c ∈ T, c ≠ SP := by
    intro c hc; rw [hall c hc]; decide
  have hws : ∀ c ∈ T, isspace c = false := by
    intro c hc; rw [hall c hc]; decide
  have e5 : str "PING " = str "PING" ++ [SP] := by decide
  have hc : cstr (str "PING " ++ T) = str "PING" ++ SP :: T := by
    rw [cstr_of_no_nul, e5, List.append_assoc]
    · rfl
    · intro h
      rcases List.mem_append.1 h with h | h
      · revert h; decide
      · exact absurd (hall 0 h) (by decide)
  have hlen : (cstr (str "PING " ++ T)).length < MSG_MAX := by
    rw [hc, List.length_append, List.length_cons, hT]; decide
  have ht : tokens (str "PING " ++ T) = [str "PING", T] := by
    rw [tokens_of_line _ hlen, hc, words_append_space _ _ (by decide), words_of_no_space _ hsp,
      if_neg hne, if_neg (by decide)]
    rfl
  have htok : ping_token (str "PING " ++ T) = some T := by
    unfold ping_token
    rw [hc, scanS_word (str "PING") _ SP (by decide) (by decide) (by decide)]
    simp only
    have := skipws_word T [] hne hws
    rw [List.append_nil] at this
    rw [skipws_space SP _ (by decide), this, scanS_word_end _ hne hws]
  have h1 : ¬ T = str "376" := by
    intro h
    rw [h] at hT
    exact absurd hT (by decide)
  have h2 : (str "PONG " ++ T).length = 511 := by
    rw [List.length_append, hT]; decide
  rw [dispatchSent_eq, ht]
  simp only [List.getElem?_cons_zero, List.getElem?_cons_succ, if_true, Option.some.injEq, h1,
    if_false, List.append_nil, ping_cb, htok, Option.getD_some, List.map_cons, List.map_nil,
    irc_send_bytes_length, h2]
  rfl

/-! ## Order and multiplicity of the calls -/

theorem scanTable_increasing (tok : List Nat) (y : Nat) (tbl : List irc_callback_s) :
    ∀ i0 : Nat, (scanTable tok y tbl i0).Pairwise (fun i j => i < j) ∧
      ∀ i ∈ scanTable tok y tbl i0, i0 ≤ i := by
  induction tbl with
  | nil => intro i0; simp [scanTable]
  | cons c rest ih =>
    intro i0
    obtain ⟨h1, h2⟩ := ih (i0 + 1)
    have hge : ∀ i ∈ scanTable tok y rest (i0 + 1), i0 < i := fun i hi => h2 i hi
    by_cases hc : (strncmp_eq tok c.search MSG_MAX && c.n == (y : Int)) = true
    · simp only [scanTable, if_pos hc, List.singleton_append, List.pairwise_cons,
        List.mem_cons]
      refine ⟨⟨hge, h1⟩, ?_⟩
      rintro i (rfl | hi)
      · exact le_refl _
      · exact le_of_lt (hge i hi)
    · simp only [scanTable, if_neg hc, List.nil_append]
      exact ⟨h1, fun i hi => le_of_lt (hge i hi)⟩

theorem scanTable_entryPos (tok : List Nat) (y : Nat) (tbl : List irc_callback_s) (i : Nat)
    (h : i ∈ scanTable tok y tbl 0) : entryPos tbl i = (y : Int) := by
  obtain ⟨j, b, hj, hi, _, hn⟩ := (scanTable_mem tok y tbl 0 i).1 h
  have : i = j := by omega
  subst this
  simp [entryPos, hj, hn]

theorem walk_entryPos (tbl : List irc_callback_s) (toks : List (List Nat)) (y0 i : Nat)
    (h : i ∈ walk tbl toks y0) : (y0 : Int) ≤ entryPos tbl i := by
  obtain ⟨k, tok, b, _, hb, _, hn⟩ := (walk_mem tbl toks y0 i).1 h
  simp only [entryPos, hb, hn]
  omega

theorem walk_pairwise (tbl : List irc_callback_s) (toks : List (List Nat)) :
    ∀ y0 : Nat, (walk tbl toks y0).Pairwise (callsBefore tbl) := by
  induction toks with
  | nil => intro y0; simp [walk]
  | cons t ts ih =>
    intro y0
    simp only [walk]
    rw [List.pairwise_append]
    refine ⟨?_, ih (y0 + 1), ?_⟩
    · refine List.Pairwise.imp_of_mem ?_ (scanTable_increasing t y0 tbl 0).1
      intro i j hi hj hlt
      right
      exact ⟨by rw [scanTable_entryPos t y0 tbl i hi, scanTable_entryPos t y0 tbl j hj], hlt⟩
    · intro i hi j hj
      left
      have h1 := scanTable_entryPos t y0 tbl i hi
      have h2 := walk_entryPos tbl ts (y0 + 1) j hj
      rw [h1]
      omega

theorem callsBefore_ne (tbl : List irc_callback_s) (i j : Nat) (h : callsBefore tbl i j) :
    i ≠ j := by
  rintro rfl
  rcases h with h | ⟨_, h⟩
  · exact lt_irrefl _ h
  · exact lt_irrefl _ h

theorem dispatch_nodup (tbl : List irc_callback_s) (buf : List Nat) :
    (dispatch tbl buf).Nodup := by
  rw [dispatch_eq_walk]
  exact (walk_pairwise tbl (tokens buf) 0).imp (fun h => callsBefore_ne tbl _ _ h)

/-! ## The writes into the line buffer -/

theorem readStep_cases (r : Reader) (chr : Nat) :
    (((r.cr || chr == CR) && chr == LF) = true ∧ (0 < r.ln ∧ r.ln - 1 < MSG_MAX) ∧
        readStep r chr = .line (r.buf.set (r.ln - 1) 0)) ∨
    (((r.cr || chr == CR) && chr == LF) = true ∧ ¬ (0 < r.ln ∧ r.ln - 1 < MSG_MAX) ∧
        readStep r chr = .fault) ∨
    (((r.cr || chr == CR) && chr == LF) = false ∧ r.ln < MSG_MAX ∧
        readStep r chr = .more ⟨r.buf.set r.ln chr, r.ln + 1, r.cr || chr == CR⟩) ∨
    (((r.cr || chr == CR) && chr == LF) = false ∧ ¬ r.ln < MSG_MAX ∧
        readStep r chr = .fault) := by
  unfold readStep
  by_cases hc : ((r.cr || chr == CR) && chr == LF) = true
  · by_cases h : 0 < r.ln ∧ r.ln - 1 < MSG_MAX
    · left; exact ⟨hc, h, by simp only [hc, if_true, if_pos h]⟩
    · right; left; exact ⟨hc, h, by simp only [hc, if_true, if_neg h]⟩
  · have hc2 : ((r.cr || chr == CR) && chr == LF) = false := by simpa using hc
    by_cases h : r.ln < MSG_MAX
    · right; right; left
      refine ⟨hc2, h, ?_⟩
      simp only [hc2, Bool.false_eq_true, if_false, if_pos h]
    · right; right; right
      refine ⟨hc2, h, ?_⟩
      simp only [hc2, Bool.false_eq_true, if_false, if_neg h]

theorem readStep_fault_iff (r : Reader) (chr : Nat) :
    readStep r chr = .fault ↔ ¬ (0 ≤ writeIndex r chr ∧ writeIndex r chr < (MSG_MAX : Int)) := by
  have hM : MSG_MAX = 512 := rfl
  unfold writeIndex
  rcases readStep_cases r chr with ⟨hc, h, e⟩ | ⟨hc, h, e⟩ | ⟨hc, h, e⟩ | ⟨hc, h, e⟩
  · rw [e, if_pos hc]
    constructor
    · intro e2; cases e2
    · intro hn; exact absurd ⟨by omega, by omega⟩ hn
  · rw [e, if_pos hc]
    constructor
    · intro _ hh; exact h ⟨by omega, by omega⟩
    · intro _; trivial
  · rw [e, hc]
    simp only [Bool.false_eq_true, if_false]
    constructor
    · intro e2; cases e2
    · intro hn; exact absurd ⟨by omega, by omega⟩ hn
  · rw [e, hc]
    simp only [Bool.false_eq_true, if_false]
    constructor
    · intro _ hh; exact h (by omega)
    · intro _; trivial

theorem frames_ret (r : Reader) (x : ReadResult) (chr : Nat) (xs : List ReadResult)
    (hx : irc_read x = .ret chr) :
    frames r (x :: xs) =
      match readStep r chr with
      | .fault => ([], .fault)
      | .more r2 => frames r2 xs
      | .line buf => ((buf :: (frames Reader.fresh xs).1), (frames Reader.fresh xs).2) := by
  simp only [frames, hx]

theorem writes_ret (r : Reader) (x : ReadResult) (chr : Nat) (xs : List ReadResult)
    (hx : irc_read x = .ret chr) :
    writes r (x :: xs) = writeIndex r chr ::
      (match readStep r chr with
       | .fault => []
       | .more r2 => writes r2 xs
       | .line _ => writes Reader.fresh xs) := by
  simp only [writes, hx]

/-- A run that does not stop on a write outside the array has made none. -/
theorem writes_in_bounds (xs : List ReadResult) :
    ∀ r : Reader, (frames r xs).2 ≠ .fault →
      ∀ idx ∈ writes r xs, 0 ≤ idx ∧ idx < (MSG_MAX : Int) := by
  induction xs with
  | nil => intro r _ idx h; simp [writes] at h
  | cons x xs ih =>
    intro r hnf idx hidx
    cases hx : irc_read x with
    | exit st => simp [writes, hx] at hidx
    | ret chr =>
      rw [writes_ret r x chr xs hx] at hidx
      rw [frames_ret r x chr xs hx] at hnf
      have hb : readStep r chr ≠ .fault → 0 ≤ writeIndex r chr ∧ writeIndex r chr < (MSG_MAX : Int) := by
        intro hne
        by_contra hcon
        exact hne ((readStep_fault_iff r chr).2 hcon)
      cases hs : readStep r chr with
      | fault => rw [hs] at hnf; exact absurd rfl hnf
      | more r2 =>
        rw [hs] at hnf hidx
        rcases List.mem_cons.1 hidx with h | h
        · rw [h]; exact hb (by rw [hs]; intro e; cases e)
        · exact ih r2 hnf idx h
      | line buf =>
        rw [hs] at hnf hidx
        rcases List.mem_cons.1 hidx with h | h
        · rw [h]; exact hb (by rw [hs]; intro e; cases e)
        · exact ih Reader.fresh hnf idx h

/-- One line without CR and LF, followed by CR LF, is handed over as its C string. -/
theorem frames_line_any (l : List Nat) (hlen : l.length < MSG_MAX)
    (hl : ∀ c ∈ l, c ≠ CR ∧ c ≠ LF) (rest : List ReadResult) :
    ∃ buf, cstr buf = cstr l ∧
      frames Reader.fresh (bytes (l ++ [CR, LF]) ++ rest)
        = (buf :: (frames Reader.fresh rest).1, (frames Reader.fresh rest).2) := by
  obtain ⟨buf, hstep, hbuf⟩ := readStep_after_line l CR true LF hlen (by decide)
  refine ⟨buf, hbuf, ?_⟩
  have e : bytes (l ++ [CR, LF]) ++ rest = bytes l ++ (.got CR :: .got LF :: rest) := by
    simp [bytes]
  have h1 := frames_plain l hl (.got CR :: .got LF :: rest) [] (by simpa using le_of_lt hlen)
  rw [e, fresh_eq_after, h1, ← fresh_eq_after]
  simp only [List.nil_append, frames_got]
  rw [readStep_after_more l false CR hlen (by decide)]
  simp only [frames_got]
  have : (false || CR == CR) = true := by decide
  rw [this, hstep]

theorem frames_encode_any (lines : List (List Nat))
    (h : ∀ l ∈ lines, l.length < MSG_MAX ∧ ∀ c ∈ l, c ≠ CR ∧ c ≠ LF) (rest : List ReadResult) :
    (frames Reader.fresh (bytes (encode lines) ++ rest)).1.map cstr
        = lines.map cstr ++ (frames Reader.fresh rest).1.map cstr ∧
      (frames Reader.fresh (bytes (encode lines) ++ rest)).2 = (frames Reader.fresh rest).2 := by
  induction lines with
  | nil => simp [encode, bytes]
  | cons l ls ih =>
    obtain ⟨hlen, hl⟩ := h l (List.mem_cons_self _ _)
    have ih2 := ih (fun m hm => h m (List.mem_cons_of_mem _ hm))
    obtain ⟨buf, hbuf, hfr⟩ := frames_line_any l hlen hl (bytes (encode ls) ++ rest)
    have e : bytes (encode (l :: ls)) ++ rest
        = bytes (l ++ [CR, LF]) ++ (bytes (encode ls) ++ rest) := by
      simp [encode, bytes]
    rw [e, hfr]
    simp [hbuf, ih2.1, ih2.2]

theorem cstr_length_le (a : List Nat) : (cstr a).length ≤ a.length :=
  (List.takeWhile_sublist _).length_le

theorem crStored_fresh : crStored Reader.fresh := by
  intro h; cases h

theorem crStored_more (r r2 : Reader) (chr : Nat) (h : readStep r chr = .more r2) :
    crStored r2 := by
  rcases readStep_cases r chr with ⟨_, _, e⟩ | ⟨_, _, e⟩ | ⟨_, _, e⟩ | ⟨_, _, e⟩
  · rw [e] at h; cases h
  · rw [e] at h; cases h
  · rw [e] at h
    cases h
    intro _
    exact Nat.succ_pos _
  · rw [e] at h; cases h

theorem crStored_line (r : Reader) (chr : Nat) (buf : List Nat)
    (h : readStep r chr = .line buf) : 0 < r.ln := by
  rcases readStep_cases r chr with ⟨_, hh, _⟩ | ⟨_, _, e⟩ | ⟨_, _, e⟩ | ⟨_, _, e⟩
  · exact hh.1
  · rw [e] at h; cases h
  · rw [e] at h; cases h
  · rw [e] at h; cases h

theorem writeIndex_nonneg (r : Reader) (chr : Nat) (hr : crStored r) : 0 ≤ writeIndex r chr := by
  unfold writeIndex
  by_cases hc : ((r.cr || chr == CR) && chr == LF) = true
  · rw [if_pos hc]
    simp only [Bool.and_eq_true, Bool.or_eq_true, beq_iff_eq] at hc
    obtain ⟨h1, h2⟩ := hc
    have hcr : r.cr = true := by
      rcases h1 with h1 | h1
      · exact h1
      · rw [h2] at h1; exact absurd h1 (by decide)
    have := hr hcr
    omega
  · rw [if_neg hc]
    omega

theorem writes_nonneg (xs : List ReadResult) :
    ∀ r : Reader, crStored r → ∀ idx ∈ writes r xs, 0 ≤ idx := by
  induction xs with
  | nil => intro r _ idx h; simp [writes] at h
  | cons x xs ih =>
    intro r hr idx hidx
    cases hx : irc_read x with
    | exit st => simp [writes, hx] at hidx
    | ret chr =>
      rw [writes_ret r x chr xs hx] at hidx
      rcases List.mem_cons.1 hidx with h | h
      · rw [h]; exact writeIndex_nonneg r chr hr
      · cases hs : readStep r chr with
        | fault => rw [hs] at h; simp at h
        | more r2 => rw [hs] at h; exact ih r2 (crStored_more r r2 chr hs) idx h
        | line buf => rw [hs] at h; exact ih Reader.fresh crStored_fresh idx h

theorem frames_starved_crStored (xs : List ReadResult) :
    ∀ r r2 : Reader, crStored r → (frames r xs).2 = .starved r2 → crStored r2 := by
  induction xs with
  | nil =>
    intro r r2 hr h
    simp only [frames, Halt.starved.injEq] at h
    rw [← h]; exact hr
  | cons x xs ih =>
    intro r r2 hr h
    cases hx : irc_read x with
    | exit st => simp [frames, hx] at h
    | ret chr =>
      rw [frames_ret r x chr xs hx] at h
      cases hs : readStep r chr with
      | fault => rw [hs] at h; simp at h
      | more r3 => rw [hs] at h; exact ih r3 r2 (crStored_more r r3 chr hs) h
      | line buf => rw [hs] at h; exact ih Reader.fresh r2 crStored_fresh h

/-- A run resumed with more reads goes on from the state it was waiting in. -/
theorem frames_append (xs ys : List ReadResult) :
    ∀ r r2 : Reader, (frames r xs).2 = .starved r2 →
      frames r (xs ++ ys) = ((frames r xs).1 ++ (frames r2 ys).1, (frames r2 ys).2) := by
  induction xs with
  | nil =>
    intro r r2 h
    simp only [frames, Halt.starved.injEq] at h
    subst h
    simp [frames]
  | cons x xs ih =>
    intro r r2 h
    cases hx : irc_read x with
    | exit st => simp [frames, hx] at h
    | ret chr =>
      rw [frames_ret r x chr xs hx] at h
      rw [List.cons_append, frames_ret r x chr (xs ++ ys) hx, frames_ret r x chr xs hx]
      cases hs : readStep r chr with
      | fault => rw [hs] at h; simp at h
      | more r3 => rw [hs] at h; simp only; exact ih r3 r2 h
      | line buf =>
        rw [hs] at h
        simp only at h ⊢
        rw [ih Reader.fresh r2 h]
        simp

/-! ## The dispatcher on the arrays -/

theorem cstr_drop (a : List Nat) : ∀ k : Nat, k ≤ (cstr a).length →
    cstr (a.drop k) = (cstr a).drop k := by
  induction a with
  | nil => intro k _; simp [cstr]
  | cons c cs ih =>
    intro k hk
    cases k with
    | zero => rfl
    | succ k =>
      by_cases hc : c = 0
      · subst hc
        simp [cstr] at hk
      · have e : cstr (c :: cs) = c :: cstr cs := by simp [cstr, List.takeWhile_cons, hc]
        rw [e] at hk ⊢
        simp only [List.length_cons, Nat.succ_le_succ_iff] at hk
        simpa using ih k hk

theorem drop_length_takeWhile (p : Nat → Bool) (l : List Nat) :
    l.drop (l.takeWhile p).length = l.dropWhile p := by
  induction l with
  | nil => rfl
  | cons c cs ih =>
    by_cases hc : p c
    · simp [List.takeWhile_cons, List.dropWhile_cons, hc, ih]
    · simp [List.takeWhile_cons, List.dropWhile_cons, hc]

theorem take_length_takeWhile (p : Nat → Bool) (l : List Nat) :
    l.take (l.takeWhile p).length = l.takeWhile p := by
  induction l with
  | nil => rfl
  | cons c cs ih =>
    by_cases hc : p c
    · simp [List.takeWhile_cons, hc, ih]
    · simp [List.takeWhile_cons, hc]

theorem cstr_set_nul (a : List Nat) : ∀ n : Nat, n < (cstr a).length →
    cstr (a.set n 0) = (cstr a).take n := by
  induction a with
  | nil => intro n hn; simp [cstr] at hn
  | cons c cs ih =>
    intro n hn
    by_cases hc : c = 0
    · subst hc
      simp [cstr] at hn
    · have e : cstr (c :: cs) = c :: cstr cs := by simp [cstr, List.takeWhile_cons, hc]
      cases n with
      | zero => simp [cstr]
      | succ n =>
        rw [e] at hn ⊢
        simp only [List.length_cons, Nat.succ_lt_succ_iff] at hn
        have := ih n hn
        simp only [List.set_cons_succ, List.take_succ_cons]
        rw [← this]
        simp [cstr, List.takeWhile_cons, hc]

/-- What a `strtok` call on the array yields, against `strtok` on the text left. -/
theorem strtokMem_spec (m : Arrays) (p : Nat) :
    ((strtokMem m p).1 = none ∧ strtok (cstr (m.tbuf.drop p)) = none ∧ (strtokMem m p).2 = m) ∨
    (∃ b q, (strtokMem m p).1 = some (b, q) ∧ (strtokMem m p).2.buf = m.buf ∧
      strtok (cstr (m.tbuf.drop p))
        = some (cstr ((strtokMem m p).2.tbuf.drop b), cstr ((strtokMem m p).2.tbuf.drop q))) := by
  set s := cstr (m.tbuf.drop p) with hs
  set k := (s.takeWhile (fun c => c == SP)).length with hk
  have hkle : k ≤ s.length := (List.takeWhile_sublist _).length_le
  set s1 := s.dropWhile (fun c => c == SP) with hs1
  have hb : cstr (m.tbuf.drop (p + k)) = s1 := by
    rw [← List.drop_drop, cstr_drop _ k hkle, hs1, hk]
    exact drop_length_takeWhile _ s
  set n := (s1.takeWhile (fun c => c != SP)).length with hn
  have hnle : n ≤ s1.length := (List.takeWhile_sublist _).length_le
  have he : cstr (m.tbuf.drop (p + k + n)) = s1.dropWhile (fun c => c != SP) := by
    rw [← List.drop_drop, cstr_drop _ n (by rw [hb]; exact hnle), hb, hn]
    exact drop_length_takeWhile _ s1
  have hsplit := List.takeWhile_append_dropWhile (fun c => c != SP) s1
  by_cases e1 : s1 = []
  · left
    have h1 : strtokMem m p = (none, m) := by
      simp only [strtokMem, ← hs, ← hk, hb, e1, if_true]
    refine ⟨by rw [h1], ?_, by rw [h1]⟩
    simp only [strtok, ← hs1, e1, if_true]
  · right
    have hst : strtok s = some (s1.takeWhile (fun c => c != SP),
        (s1.dropWhile (fun c => c != SP)).drop 1) := by
      simp only [strtok, ← hs1, if_neg e1]
    by_cases e2 : s1.dropWhile (fun c => c != SP) = []
    · have h1 : strtokMem m p = (some (p + k, p + k + n), m) := by
        simp only [strtokMem, ← hs, ← hk, hb, if_neg e1, ← hn, he, e2, if_true]
      refine ⟨p + k, p + k + n, by rw [h1], by rw [h1], ?_⟩
      rw [h1, hst, hb, he, e2]
      rw [e2, List.append_nil] at hsplit
      rw [hsplit]
      rfl
    · have h1 : strtokMem m p = (some (p + k, p + k + n + 1), ⟨m.buf, m.tbuf.set (p + k + n) 0⟩) := by
        simp only [strtokMem, ← hs, ← hk, hb, if_neg e1, ← hn, he, if_neg e2]
      refine ⟨p + k, p + k + n + 1, by rw [h1], by rw [h1], ?_⟩
      rw [h1, hst]
      have hnlt : n < s1.length := by
        have := congrArg List.length hsplit
        rw [List.length_append] at this
        have : 0 < (s1.dropWhile (fun c => c != SP)).length := List.length_pos.2 e2
        omega
      have htok : cstr ((m.tbuf.set (p + k + n) 0).drop (p + k))
          = s1.takeWhile (fun c => c != SP) := by
        rw [List.drop_set, if_neg (by omega), show p + k + n - (p + k) = n by omega,
          cstr_set_nul _ n (by rw [hb]; exact hnlt), hb, hn]
        exact take_length_takeWhile _ s1
      have hrest : cstr ((m.tbuf.set (p + k + n) 0).drop (p + k + n + 1))
          = (s1.dropWhile (fun c => c != SP)).drop 1 := by
        rw [List.drop_set, if_pos (by omega), ← List.drop_drop,
          cstr_drop _ 1 (by rw [he]; exact List.length_pos.2 e2), he]
      simp only [htok, hrest]

/-- The calls of the loop on the arrays are those of the loop on the texts,
each with the array `buf` as argument, and `buf` is left as it was. -/
theorem dispatchLoopMem_spec (tbl : List irc_callback_s) :
    ∀ (fuel : Nat) (m : Arrays) (p y : Nat),
      (dispatchLoopMem tbl fuel (strtokMem m p) y).1.map Call.i
          = dispatchLoop tbl fuel (strtok (cstr (m.tbuf.drop p))) y ∧
        (∀ c ∈ (dispatchLoopMem tbl fuel (strtokMem m p) y).1, c.arg = m.buf) ∧
        (dispatchLoopMem tbl fuel (strtokMem m p) y).2.buf = m.buf := by
  intro fuel
  induction fuel with
  | zero =>
    intro m p y
    have hbuf : (strtokMem m p).2.buf = m.buf := by
      rcases strtokMem_spec m p with ⟨_, _, h3⟩ | ⟨b, q, _, h2, _⟩
      · rw [h3]
      · exact h2
    cases hx : strtokMem m p with
    | mk o m2 =>
      rw [hx] at hbuf
      simp only at hbuf
      simp [dispatchLoopMem, dispatchLoop, hbuf]
  | succ fuel ih =>
    intro m p y
    rcases strtokMem_spec m p with ⟨h1, h2, h3⟩ | ⟨b, q, h1, h2, h3⟩
    · have e : strtokMem m p = (none, m) := Prod.ext h1 h3
      rw [e, h2]
      simp [dispatchLoopMem, dispatchLoop]
    · have e : strtokMem m p = (some (b, q), (strtokMem m p).2) := Prod.ext h1 rfl
      obtain ⟨i1, i2, i3⟩ := ih (strtokMem m p).2 q (y + 1)
      rw [e, h3]
      simp only [dispatchLoopMem, dispatchLoop, List.map_append, List.map_map, i1]
      refine ⟨?_, ?_, ?_⟩
      · congr 1
        simp [Function.comp_def]
      · intro c hc
        rcases List.mem_append.1 hc with hc | hc
        · obtain ⟨i, _, rfl⟩ := List.mem_map.1 hc
          exact h2
        · rw [i2 c hc, h2]
      · rw [i3, h2]

/-! ## The claims -/

/-- Claim C1: when the frame reader is fed lines of at most 511 bytes without CR,
LF or NUL, each followed by CR LF, it hands over exactly one Line per CR LF pair,
in order, each equal to the original line, and is then back in its fresh state. -/
theorem frame_reader_roundtrip (lines : List (List Nat))
    (h : ∀ l ∈ lines, l.length ≤ 511 ∧ CR ∉ l ∧ LF ∉ l ∧ 0 ∉ l) :
    irc_loop_lines (bytes (encode lines)) = lines ∧
      (irc_loop_frames (bytes (encode lines))).1.length = lines.length ∧
      (irc_loop_frames (bytes (encode lines))).2 = .starved Reader.fresh := by
  have h2 : ∀ l ∈ lines, l.length < MSG_MAX ∧ CR ∉ l ∧ LF ∉ l ∧ 0 ∉ l := by
    intro l hl
    obtain ⟨a, b⟩ := h l hl
    exact ⟨by unfold MSG_MAX; omega, b⟩
  have h3 := frames_encode lines h2
  refine ⟨h3.1, ?_, h3.2⟩
  have := congrArg List.length h3.1
  simpa [irc_loop_frames] using this

/-- The lines `PING :x`, the empty line and `a b` come back unchanged (C1). -/
theorem frame_reader_roundtrip_witness :
    (∀ l ∈ [str "PING :x", str "", str "a b"], l.length ≤ 511 ∧ CR ∉ l ∧ LF ∉ l ∧ 0 ∉ l) ∧
    (irc_loop_lines (bytes (encode [str "PING :x", str "", str "a b"]))
        = [str "PING :x", str "", str "a b"] ∧
      (irc_loop_frames (bytes (encode [str "PING :x", str "", str "a b"]))).1.length
        = [str "PING :x", str "", str "a b"].length ∧
      (irc_loop_frames (bytes (encode [str "PING :x", str "", str "a b"]))).2
        = .starved Reader.fresh) :=
  ⟨by decide, frame_reader_roundtrip [str "PING :x", str "", str "a b"] (by decide)⟩

/-- Claim C2: the dispatcher calls the handler of the table entry `cb[i] = (n, search, fn)`
for a buffer if and only if the token sequence of the buffer has an element at
index `n` and that element is exactly `search`. -/
theorem dispatcher_fires_iff (buf : List Nat) (i : Nat) (b : irc_callback_s)
    (hb : cb[i]? = some b) :
    i ∈ dispatch cb buf ↔ ∃ y : Nat, b.n = (y : Int) ∧ (tokens buf)[y]? = some b.search :=
  dispatch_mem cb buf i b hb (cb_search_short b (List.getElem?_mem hb))

/-- On ` PING  PING` the entry `(0, PING)` is invoked, through the token at index 0 (C2). -/
theorem dispatcher_fires_iff_witness :
    cb[0]? = some ⟨0, str "PING", .ping_cb⟩ ∧
    (0 ∈ dispatch cb (str " PING  PING") ↔
      ∃ y : Nat, (⟨0, str "PING", .ping_cb⟩ : irc_callback_s).n = (y : Int) ∧
        (tokens (str " PING  PING"))[y]? = some (⟨0, str "PING", .ping_cb⟩ : irc_callback_s).search) :=
  ⟨by decide, dispatcher_fires_iff (str " PING  PING") 0 ⟨0, str "PING", .ping_cb⟩ (by decide)⟩

/-- Claim C3 as stated fails: dispatching `PING :x` sends `PONG :x`, with the
colon, and not `PONG x`. -/
theorem ping_reply_keeps_colon :
    dispatchSent [] (str "PING :x") = [str "PONG :x\r\n"] ∧
      dispatchSent [] (str "PING :x") ≠ [str "PONG x\r\n"] := by
  decide

/-- Claim C3, amended: for every token `X` without white space, dispatching the
Line `PING :X` sends exactly one message, `PONG :X` followed by CR LF. -/
theorem ping_sends_pong (junk buf X : List Nat) (hline : cstr buf = str "PING :" ++ X)
    (hws : ∀ c ∈ X, isspace c = false) (hlen : (cstr buf).length < MSG_MAX) :
    dispatchSent junk buf = [str "PONG :" ++ X ++ [CR, LF]] := by
  have ht := tokens_ping_line buf X hline hws hlen
  have hl : (str "PONG " ++ 58 :: X).length < MSG_MAX := by
    have := hlen
    rw [hline] at this
    have e1 : (str "PING :").length = 6 := by decide
    have e2 : (str "PONG ").length = 5 := by decide
    simp only [List.length_append, List.length_cons, e1, e2] at this ⊢
    omega
  have h1 : ¬ (58 :: X) = str "376" := by
    rw [str_376]; simp
  rw [dispatchSent_eq, ht]
  simp only [List.getElem?_cons_zero, List.getElem?_cons_succ, if_true, Option.some.injEq, h1,
    if_false, List.append_nil, ping_cb, ping_token_of_line buf X hline hws, Option.getD_some]
  rw [irc_send_bytes_short _ hl, str_PONG_colon]
  simp

/-- The Line `PING :25ABF42D` is answered by `PONG :25ABF42D` (C3). -/
theorem ping_sends_pong_witness :
    (cstr (str "PING :25ABF42D") = str "PING :" ++ str "25ABF42D" ∧
      (∀ c ∈ str "25ABF42D", isspace c = false) ∧
      (cstr (str "PING :25ABF42D")).length < MSG_MAX) ∧
    dispatchSent [] (str "PING :25ABF42D") = [str "PONG :" ++ str "25ABF42D" ++ [CR, LF]] :=
  ⟨by decide, ping_sends_pong [] (str "PING :25ABF42D") (str "25ABF42D") (by decide) (by decide)
    (by decide)⟩

/-- Claim C4: on the line `:<nick>!<user@host> PRIVMSG <target> :<message>` of at
most 511 bytes, with nick, user@host and target non-empty and free of white
space, `!` and `:`, the handler `privmsg_cb` extracts the nick, the message
and the target. -/
theorem privmsg_cb_extracts (buf nick userhost target message : List Nat)
    (hline : cstr buf = str ":" ++ nick ++ str "!" ++ userhost ++ str " PRIVMSG " ++ target
      ++ str " :" ++ message)
    (hn : isWord nick = true) (hu : isWord userhost = true) (ht : isWord target = true)
    (_hlen : (cstr buf).length < MSG_MAX) :
    privmsg_cb buf = { from_ := some nick, msg := message, to_ := some target } :=
  privmsg_cb_fields buf nick userhost target message hline hn hu ht

/-- The line `:dcat!de@d.cat PRIVMSG bob :hey man!!!` yields nick `dcat`, message
`hey man!!!` and target `bob` (C4). -/
theorem privmsg_cb_extracts_witness :
    (cstr (str ":dcat!de@d.cat PRIVMSG bob :hey man!!!")
        = str ":" ++ str "dcat" ++ str "!" ++ str "de@d.cat" ++ str " PRIVMSG " ++ str "bob"
          ++ str " :" ++ str "hey man!!!" ∧
      isWord (str "dcat") = true ∧ isWord (str "de@d.cat") = true ∧ isWord (str "bob") = true ∧
      (cstr (str ":dcat!de@d.cat PRIVMSG bob :hey man!!!")).length < MSG_MAX) ∧
    privmsg_cb (str ":dcat!de@d.cat PRIVMSG bob :hey man!!!")
      = { from_ := some (str "dcat"), msg := str "hey man!!!", to_ := some (str "bob") } :=
  ⟨by decide, privmsg_cb_extracts (str ":dcat!de@d.cat PRIVMSG bob :hey man!!!") (str "dcat")
    (str "de@d.cat") (str "bob") (str "hey man!!!") (by decide) (by decide) (by decide)
    (by decide) (by decide)⟩

/-- Claim C5: a Line whose token at index 1 is `376` makes the dispatcher send
`JOIN #bots` exactly once; a Line whose token at index 1 is not `376` makes it
send no JOIN; for `:server 376 nick :End of MOTD` the `JOIN #bots` is the only
message sent. -/
theorem join_on_376 (junk buf : List Nat) :
    ((tokens buf)[1]? = some (str "376") → (dispatchSent junk buf).count JOIN_BOTS = 1) ∧
    ((tokens buf)[1]? ≠ some (str "376") → ∀ m ∈ dispatchSent junk buf, isJoin m = false) ∧
    (cstr buf = str ":server 376 nick :End of MOTD" → dispatchSent junk buf = [JOIN_BOTS]) := by
  refine ⟨?_, ?_, ?_⟩
  · intro h
    rw [dispatchSent_eq, h, if_pos rfl, connected_cb_eq]
    by_cases a : (tokens buf)[0]? = some (str "PING")
    · rw [if_pos a]
      simp [ping_cb, List.count_cons, pong_ne_join]
    · rw [if_neg a]
      simp
  · intro h m hm
    rw [dispatchSent_eq, if_neg h, List.append_nil] at hm
    by_cases a : (tokens buf)[0]? = some (str "PING")
    · rw [if_pos a] at hm
      simp only [ping_cb, List.mem_singleton] at hm
      rw [hm]
      exact isJoin_pong _
    · rw [if_neg a] at hm
      simp at hm
  · intro h
    have hlen : (cstr buf).length < MSG_MAX := by rw [h]; decide
    have ht : tokens buf = [str ":server", str "376", str "nick", str ":End", str "of",
        str "MOTD"] := by
      rw [tokens_of_line buf hlen, h]
      decide
    have h0 : ¬ str ":server" = str "PING" := by decide
    rw [dispatchSent_eq, ht, connected_cb_eq]
    simp [h0]

/-- The Line `PING 376` gets one `JOIN #bots`, `PING :x` gets none, and the end
of MOTD line gets the JOIN alone (C5). -/
theorem join_on_376_witness :
    ((tokens (str "PING 376"))[1]? = some (str "376") ∧
      (dispatchSent [] (str "PING 376")).count JOIN_BOTS = 1) ∧
    ((tokens (str "PING :x"))[1]? ≠ some (str "376") ∧
      ∀ m ∈ dispatchSent [] (str "PING :x"), isJoin m = false) ∧
    (cstr (str ":server 376 nick :End of MOTD") = str ":server 376 nick :End of MOTD" ∧
      dispatchSent [] (str ":server 376 nick :End of MOTD") = [JOIN_BOTS]) :=
  ⟨⟨by decide, (join_on_376 [] (str "PING 376")).1 (by decide)⟩,
    ⟨by decide, (join_on_376 [] (str "PING :x")).2.1 (by decide)⟩,
    ⟨by decide, (join_on_376 [] (str ":server 376 nick :End of MOTD")).2.2 (by decide)⟩⟩

/-- Claim C6 against the code: on a read that returns zero bytes `irc_read` ends
the process, and the frame reader with it, through `err(0, ...)`: the exit
status is 0. -/
theorem closed_read_exits_zero :
    irc_read .closed = .exit 0 ∧
      ∀ (r : Reader) (rest : List ReadResult), frames r (.closed :: rest) = ([], .exited 0) :=
  ⟨rfl, fun _ _ => rfl⟩

/-- Claim C7 against the code: `irc_send` writes the message cut to 511 bytes and
then CR LF, so a message of 511 bytes or more puts 513 bytes on the connection;
the reply to a `PING` with a token of 506 bytes is such a message. -/
theorem irc_send_writes_513 :
    (∀ f : List Nat, irc_send_bytes f = f.take 511 ++ [CR, LF] ∧
      (irc_send_bytes f).length = min f.length 511 + 2) ∧
    (irc_send_bytes (List.replicate 511 97)).length = 513 ∧
    (dispatchSent [] (str "PING " ++ List.replicate 506 97)).map List.length = [513] := by
  exact ⟨fun f => ⟨rfl, irc_send_bytes_length f⟩,
    by rw [irc_send_bytes_length, List.length_replicate]; decide,
    ping_long_line [] (List.replicate 506 97) (List.length_replicate _ _)
      (fun _ h => List.eq_of_mem_replicate h)⟩

/-- Claim C8 against the code: `irc_send` returns 0 whether the write succeeds or
fails; when `dprintf` fails with a negative result the value is still 0, never 1. -/
theorem irc_send_returns_zero :
    (∀ f : List Nat, irc_send false f = 0) ∧
      ∀ (writeOk : Bool) (f : List Nat), irc_send writeOk f = 0 := by
  have h : ∀ (writeOk : Bool) (f : List Nat), irc_send writeOk f = 0 := by
    intro writeOk f
    cases writeOk with
    | false => simp [irc_send, dprintf, lnot]
    | true =>
      have : ((irc_send_bytes f).length : Int) ≠ 0 := by
        rw [irc_send_bytes_length]; omega
      simp [irc_send, dprintf, lnot, this]
  exact ⟨fun f => h false f, h⟩

/-- Claim C9 as stated fails: on the bytes `a LF b CR LF` the frame reader hands
over the Line `a LF b`, which holds an LF. -/
theorem line_may_hold_lf :
    irc_loop_lines (bytes (str "a\nb\r\n")) = [str "a\nb"] ∧
      ¬ (∀ l ∈ irc_loop_lines (bytes (str "a\nb\r\n")), CR ∉ l ∧ LF ∉ l) := by
  decide

/-- Claim C9, amended: for every byte stream in which CR and LF occur only as
adjacent CR LF pairs, every Line the frame reader completes holds neither CR nor LF. -/
theorem lines_without_cr_lf (bs : List Nat) (h : crlfPaired bs = true) :
    ∀ l ∈ irc_loop_lines (bytes bs), CR ∉ l ∧ LF ∉ l := by
  intro l hl
  simp only [irc_loop_lines, irc_loop_frames, List.mem_map] at hl
  obtain ⟨buf, hbuf, rfl⟩ := hl
  rw [fresh_eq_after] at hbuf
  exact (frames_paired bs).1 [] (by intro d hd; simp at hd) h buf hbuf

/-- A stream of three terminated lines, one empty and one holding a NUL, yields
Lines free of CR and LF (C9). -/
theorem lines_without_cr_lf_witness :
    crlfPaired (str "PING :x\r\n\r\na\x00b\r\n") = true ∧
      ∀ l ∈ irc_loop_lines (bytes (str "PING :x\r\n\r\na\x00b\r\n")), CR ∉ l ∧ LF ∉ l :=
  ⟨by decide, lines_without_cr_lf (str "PING :x\r\n\r\na\x00b\r\n") (by decide)⟩

/-- Claim C10 against the code: a failed read makes `irc_read` return 0, which
the frame reader stores as a NUL; with the failure after `PING` the Line
handed over is `PING` and no longer `PING :x`. -/
theorem failed_read_cuts_line :
    irc_read .error = .ret 0 ∧
    irc_loop_lines (bytes (str "PING :x\r\n")) = [str "PING :x"] ∧
    irc_loop_lines (bytes (str "PING") ++ [.error] ++ bytes (str " :x\r\n")) = [str "PING"] := by
  decide

/-- Claim C14: on the Line `PING 376` both the entry `(0, PING)` and the entry
`(1, 376)` are invoked in one dispatch; the dispatcher goes on after the first match. -/
theorem two_bindings_fire :
    dispatch cb (str "PING 376") = [0, 2] ∧
      ∃ (buf : List Nat) (i j : Nat), i ≠ j ∧ i ∈ dispatch cb buf ∧ j ∈ dispatch cb buf :=
  ⟨by decide, str "PING 376", 0, 2, by decide, by decide, by decide⟩

/-- Claim C16 as stated fails: on the Line ` PING x`, split at every space, the
first piece is empty and `PING` has index 1, so no entry of `cb` would be
invoked; the dispatcher gets `PING` from `strtok` as its first token and
invokes the entry `(0, PING)`. -/
theorem leading_space_makes_no_token :
    (str " PING x").splitOn SP = [[], str "PING", str "x"] ∧
    walk cb ((str " PING x").splitOn SP) 0 = [] ∧
    strtok (str " PING x") = some (str "PING", str "x") ∧
    dispatch cb (str " PING x") = [0] := by
  decide

/-- Claim C16, amended: the token sequence the dispatcher matches the table
against is the Line split at the spaces with the empty pieces left out, indexed
from 0: runs of spaces and leading spaces make no token and take no index. -/
theorem dispatcher_token_sequence (tbl : List irc_callback_s) (buf : List Nat) :
    dispatch tbl buf
      = walk tbl ((((cstr buf).take MSG_MAX).splitOn SP).filter (fun t => t ≠ [])) 0 := by
  rw [dispatch_eq_walk, tokens, cstr_strncpy, words]

/-- Claim C17: the calls of one dispatch are ordered by token position first and
by table index second. -/
theorem dispatch_call_order (tbl : List irc_callback_s) (buf : List Nat) :
    (dispatch tbl buf).Pairwise (callsBefore tbl) := by
  rw [dispatch_eq_walk]
  exact walk_pairwise tbl (tokens buf) 0

/-- Claim C18: in one dispatch every table entry is invoked at most once, and with
the table `cb` every handler is called at most once. -/
theorem binding_fires_at_most_once :
    (∀ (tbl : List irc_callback_s) (buf : List Nat) (i : Nat), (dispatch tbl buf).count i ≤ 1) ∧
      ∀ (buf : List Nat) (h : Handler), (calledHandlers buf).count h ≤ 1 := by
  refine ⟨fun tbl buf i => List.nodup_iff_count_le_one.1 (dispatch_nodup tbl buf) i, ?_⟩
  intro buf h
  have hne : ¬ str "PRIVMSG" = str "376" := by decide
  have hne2 : ¬ str "376" = str "PRIVMSG" := by decide
  unfold calledHandlers
  rw [dispatch_cb]
  by_cases a : (tokens buf)[0]? = some (str "PING") <;>
    by_cases b : (tokens buf)[1]? = some (str "PRIVMSG") <;>
    by_cases c : (tokens buf)[1]? = some (str "376") <;>
    cases h <;> simp [a, b, c, cb, hne, hne2]

/-- Claim C11 against the code: on `:nick!user@::1 PRIVMSG bob :hi`, a PRIVMSG
Line whose prefix holds a `:` (an IPv6 host), the colon loop of `privmsg_cb`
stops at the first `:` of the prefix, so the message printed is
`:1 PRIVMSG bob :hi` and not the trailing parameter `hi`. -/
theorem prefix_colon_cuts_message :
    (tokens (str ":nick!user@::1 PRIVMSG bob :hi"))[1]? = some (str "PRIVMSG") ∧
    (privmsg_cb (str ":nick!user@::1 PRIVMSG bob :hi")).msg = str ":1 PRIVMSG bob :hi" ∧
    trailingParam (str ":nick!user@::1 PRIVMSG bob :hi") = str "hi" ∧
    (privmsg_cb (str ":nick!user@::1 PRIVMSG bob :hi")).msg
      ≠ trailingParam (str ":nick!user@::1 PRIVMSG bob :hi") := by
  decide

/-- Claim C12 against the code: on the PRIVMSG Line `:x PRIVMSG bob :hi`, which
has no `!`, the conversion `%[^!]` reads to the end of the Line, so the nick is
the whole text after the leading `:` and not the empty string, and `sscanf`
stops there: `to` is never assigned and is printed uninitialised. On
`x PRIVMSG bob :hi` neither `from` nor `to` is assigned. -/
theorem missing_bang_fields_unset :
    (tokens (str ":x PRIVMSG bob :hi"))[1]? = some (str "PRIVMSG") ∧
    BANG ∉ str ":x PRIVMSG bob :hi" ∧
    (privmsg_cb (str ":x PRIVMSG bob :hi")).from_ = some (str "x PRIVMSG bob :hi") ∧
    (privmsg_cb (str ":x PRIVMSG bob :hi")).from_ ≠ some [] ∧
    (privmsg_cb (str ":x PRIVMSG bob :hi")).to_ = none ∧
    (tokens (str "x PRIVMSG bob :hi"))[1]? = some (str "PRIVMSG") ∧
    (privmsg_cb (str "x PRIVMSG bob :hi")).from_ = none ∧
    (privmsg_cb (str "x PRIVMSG bob :hi")).to_ = none := by
  decide

/-- Claim C15 against the code: on the bytes `a CR b LF` the frame reader of
`irc_loop` completes the Line `a CR`, because `cr` stays set after the `b`; the
three-state machine of the specification folds the CR back and completes no Line. -/
theorem stray_cr_completes_line :
    irc_loop_lines (bytes (str "a\rb\n")) = [str "a\r"] ∧
    specFrames .ACCUMULATING [] (str "a\rb\n") = [] ∧
    0 ∉ str "a\rb\n" ∧
    irc_loop_lines (bytes (str "a\rb\n")) ≠ specFrames .ACCUMULATING [] (str "a\rb\n") := by
  decide

/-- Claim C19: for a stream of CR LF terminated lines of at most 511 bytes
without CR and LF, possibly followed by the start of such a line, every write
into `buf` is at an index from 0 to 511, the run never leaves the array, and
every completed Line has at most 511 bytes. -/
theorem buffer_writes_in_bounds (lines : List (List Nat)) (tail : List Nat)
    (h : ∀ l ∈ lines, l.length ≤ 511 ∧ CR ∉ l ∧ LF ∉ l)
    (ht : tail.length ≤ 511 ∧ CR ∉ tail ∧ LF ∉ tail) :
    (∀ idx ∈ writes Reader.fresh (bytes (encode lines ++ tail)), 0 ≤ idx ∧ idx ≤ 511) ∧
    (irc_loop_frames (bytes (encode lines ++ tail))).2 ≠ .fault ∧
    ∀ l ∈ irc_loop_lines (bytes (encode lines ++ tail)), l.length ≤ 511 := by
  have hM : MSG_MAX = 512 := rfl
  have h2 : ∀ l ∈ lines, l.length < MSG_MAX ∧ ∀ c ∈ l, c ≠ CR ∧ c ≠ LF := by
    intro l hl
    obtain ⟨a, b, c⟩ := h l hl
    exact ⟨by omega, fun d hd => ⟨fun e => b (e ▸ hd), fun e => c (e ▸ hd)⟩⟩
  have htl : ∀ c ∈ tail, c ≠ CR ∧ c ≠ LF :=
    fun d hd => ⟨fun e => ht.2.1 (e ▸ hd), fun e => ht.2.2 (e ▸ hd)⟩
  have htail : frames Reader.fresh (bytes tail) = ([], .starved (Reader.after tail false)) := by
    have := frames_plain tail htl [] [] (by simp; omega)
    rw [List.append_nil, List.nil_append, ← fresh_eq_after] at this
    rw [this]
    rfl
  obtain ⟨e1, e2⟩ := frames_encode_any lines h2 (bytes tail)
  rw [htail] at e1 e2
  have hnf : (frames Reader.fresh (bytes (encode lines ++ tail))).2 ≠ .fault := by
    rw [bytes_append, e2]
    intro e; cases e
  refine ⟨?_, hnf, ?_⟩
  · intro idx hidx
    have := writes_in_bounds _ Reader.fresh hnf idx hidx
    omega
  · intro l hl
    simp only [irc_loop_lines, irc_loop_frames] at hl
    rw [bytes_append, e1] at hl
    simp only [List.map_nil, List.append_nil, List.mem_map] at hl
    obtain ⟨m, hm, rfl⟩ := hl
    exact le_trans (cstr_length_le m) (h m hm).1

/-- Two lines, one empty, and the start of a third stay inside the buffer (C19). -/
theorem buffer_writes_in_bounds_witness :
    ((∀ l ∈ [str "PING :x", str ""], l.length ≤ 511 ∧ CR ∉ l ∧ LF ∉ l) ∧
      (str "NOTI").length ≤ 511 ∧ CR ∉ str "NOTI" ∧ LF ∉ str "NOTI") ∧
    (∀ idx ∈ writes Reader.fresh (bytes (encode [str "PING :x", str ""] ++ str "NOTI")),
      0 ≤ idx ∧ idx ≤ 511) ∧
    (irc_loop_frames (bytes (encode [str "PING :x", str ""] ++ str "NOTI"))).2 ≠ .fault ∧
    ∀ l ∈ irc_loop_lines (bytes (encode [str "PING :x", str ""] ++ str "NOTI")),
      l.length ≤ 511 :=
  ⟨by decide, buffer_writes_in_bounds [str "PING :x", str ""] (str "NOTI") (by decide)
    (by decide)⟩

/-- Claim C20: in every run of the frame reader no write into `buf` is at a
negative index; when a Line is completed at least one byte has been stored
since the last reset, and the reader goes on from the reset state, with the
write position at the start of the buffer and `cr` clear. -/
theorem terminator_write_inside :
    (∀ (conn : List ReadResult), ∀ idx ∈ writes Reader.fresh conn, 0 ≤ idx) ∧
    (∀ (conn : List ReadResult) (r : Reader) (chr : Nat) (buf : List Nat),
      (irc_loop_frames conn).2 = .starved r → readStep r chr = .line buf →
        0 < r.ln ∧ 0 ≤ writeIndex r chr ∧
          (irc_loop_frames (conn ++ [.got chr])).2 = .starved Reader.fresh) ∧
    Reader.fresh.ln = 0 ∧ Reader.fresh.cr = false := by
  refine ⟨fun conn => writes_nonneg conn Reader.fresh crStored_fresh, ?_, rfl, rfl⟩
  intro conn r chr buf hst hline
  have hr := frames_starved_crStored conn Reader.fresh r crStored_fresh hst
  refine ⟨crStored_line r chr buf hline, writeIndex_nonneg r chr hr, ?_⟩
  unfold irc_loop_frames at hst ⊢
  rw [frames_append conn [.got chr] Reader.fresh r hst]
  simp only [frames_got, hline]
  rfl

/-- After `a CR b` the LF completes a Line with three bytes stored, and the
reader is reset (C20). -/
theorem terminator_write_inside_witness :
    ((irc_loop_frames (bytes (str "a\rb"))).2 = .starved (Reader.after (str "a\rb") true) ∧
      readStep (Reader.after (str "a\rb") true) LF
        = .line ((Reader.after (str "a\rb") true).buf.set 2 0)) ∧
    0 < (Reader.after (str "a\rb") true).ln ∧
    0 ≤ writeIndex (Reader.after (str "a\rb") true) LF ∧
    (irc_loop_frames (bytes (str "a\rb") ++ [.got LF])).2 = .starved Reader.fresh :=
  ⟨⟨rfl, rfl⟩, terminator_write_inside.2.1 (bytes (str "a\rb")) _ LF _ rfl rfl⟩

/-- Claim C13: every handler the dispatcher invokes is given the array `buf` with
the complete Line, as it was when the dispatch began: `strtok` writes its NULs
into the copy `tbuf` only, also for handlers invoked after earlier tokens have
been cut off. On `PING 376` the copy ends up cut to `PING` while both handlers
get `PING 376`. -/
theorem handlers_get_whole_line :
    (∀ (tbl : List irc_callback_s) (buf : List Nat),
      (∀ c ∈ (dispatchMem tbl buf).1, c.arg = buf) ∧
      (dispatchMem tbl buf).2.buf = buf ∧
      (dispatchMem tbl buf).1.map Call.i = dispatch tbl buf) ∧
    (dispatchMem cb (str "PING 376")).1 = [⟨0, str "PING 376"⟩, ⟨2, str "PING 376"⟩] ∧
    cstr (dispatchMem cb (str "PING 376")).2.tbuf = str "PING" := by
  refine ⟨fun tbl buf => ?_, by decide, by decide⟩
  obtain ⟨h1, h2, h3⟩ := dispatchLoopMem_spec tbl (MSG_MAX + 1) ⟨buf, strncpy MSG_MAX buf⟩ 0 0
  exact ⟨h2, h3, by simpa [dispatchMem, dispatch] using h1⟩

end Irc
